import Mathlib

/-!
Verification development for the Lean 2-era pretty printer core
(`src/frontends/lean/pp.cpp`).

The development is a shallow embedding of `pp.cpp` into Lean 4:

* hierarchical names, universe levels and expressions are embedded as
  inductive types (the expression type is external to `pp.cpp`; annotation
  forms — have, show, let, let-value, typed-expression, explicit,
  placeholder — are macro encodings supplied by `library/…` headers that are
  not part of the source under review, so they are modelled as dedicated
  constructors, faithful to the accessors `pp.cpp` uses);
* the external collaborators (type checker, environment/namespace registry,
  token table, numeral recognizer, beta reducer) are modelled as record
  fields holding arbitrary functions, exactly at the interface `pp.cpp`
  consumes them;
* the mutable members of `pretty_fn` are threaded explicitly: the purification
  tables as a state record, the depth counter as a call argument (mirroring
  the `flet` save/restore discipline) and the step counter as an
  argument/result pair;
* the recursive render cluster additionally takes a structural `fuel`
  argument so that the definitions are executable and kernel-reducible;
  every source-level call consumes one unit of fuel, and exhausted fuel
  yields the same ellipsis result the depth/step guard produces.  All
  theorems are stated so that the fuel pattern matches the call structure of
  the source (`pp` at fuel `F+1` performs its inner calls at fuel `F`).
-/

/-- Decimal digit character, as produced by `name::append_after`'s numeral
printing (`'0' + d`). -/
def digitChar (d : Nat) : Char := Char.ofNat (48 + d)

/-- Most-significant-digit-first decimal digits of `n`; `fuel` is a structural
recursion bound (any `fuel > n` is exact). -/
def natDigits : Nat → Nat → List Char
  | 0, _ => []
  | fuel+1, n => if n < 10 then [digitChar n] else natDigits fuel (n / 10) ++ [digitChar (n % 10)]

/-- Decimal rendering of a natural number. -/
def natToStr (n : Nat) : String := ⟨natDigits (n+1) n⟩

/-- Numeric value of a digit character. -/
def chVal (c : Char) : Nat := c.toNat - 48

/-- Value of a most-significant-first digit list. -/
def lcVal (cs : List Char) : Nat := cs.foldl (fun a c => 10 * a + chVal c) 0





/-- Hierarchical names (`util/name.h`, external to `pp.cpp`). -/
inductive Name where
  | anonymous
  | str (pre : Name) (s : String)
  | num (pre : Name) (n : Nat)
deriving DecidableEq, Repr

/-- Coercion from string literals for readability of examples. -/
instance : Coe String Name := ⟨fun s => Name.str Name.anonymous s⟩

namespace Name

/-- Model of `name::append_after(unsigned)`: a string-valued last component
gets the decimal digits appended to its string; otherwise a numeral component
is appended. -/
def appendAfter : Name → Nat → Name
  | str pre s, i => str pre (s ++ natToStr i)
  | n, i => num n i


/-- Model of `name::replace_prefix`. -/
def replacePrefix (n p new : Name) : Name :=
  if n = p then new
  else match n with
    | anonymous => anonymous
    | str pre s => str (replacePrefix pre p new) s
    | num pre i => num (replacePrefix pre p new) i

/-- Concatenation `ns + n` of two names (`operator+` on names). -/
def nconcat : Name → Name → Name
  | pre, anonymous => pre
  | pre, str p s => str (nconcat pre p) s
  | pre, num p i => num (nconcat pre p) i

/-- Is the name `anonymous`? -/
def isAnonymous : Name → Bool
  | anonymous => true
  | _ => false

/-- Dotted rendering of a name, for `format(name)`. -/
def toStr : Name → String
  | anonymous => ""
  | str anonymous s => s
  | str pre s => toStr pre ++ "." ++ s
  | num anonymous i => natToStr i
  | num pre i => toStr pre ++ "." ++ natToStr i

end Name

/-- Universe levels (`kernel/level.h`), including the placeholder level of
`library/placeholder.h`; both are external to `pp.cpp` and consumed through
the accessors `is_meta`, `meta_id`, `is_succ`, `succ_of`, `is_placeholder`,
`is_max`, `is_imax`. -/
inductive Level where
  | zero
  | succ (l : Level)
  | max (a b : Level)
  | imax (a b : Level)
  | param (n : Name)
  | mvar (n : Name)
  | placeholder
deriving DecidableEq, Repr

namespace Level

/-- `has_meta` on levels: does a level metavariable occur? -/
def hasMeta : Level → Bool
  | zero => false
  | succ l => hasMeta l
  | max a b => hasMeta a || hasMeta b
  | imax a b => hasMeta a || hasMeta b
  | param _ => false
  | mvar _ => true
  | placeholder => false

/-- `is_meta` on levels. -/
def isMeta : Level → Bool
  | mvar _ => true
  | _ => false

/-- `is_succ`. -/
def isSucc : Level → Bool
  | succ _ => true
  | _ => false

/-- `is_placeholder` on levels. -/
def isPlaceholder : Level → Bool
  | placeholder => true
  | _ => false

/-- `is_max`. -/
def isMax : Level → Bool
  | max _ _ => true
  | _ => false

/-- `is_imax`. -/
def isImax : Level → Bool
  | imax _ _ => true
  | _ => false

end Level

/-- Binder information (`kernel/expr.h`): the flags queried by `pp.cpp`
(`is_implicit`, `is_strict_implicit`, `is_inst_implicit`, `is_contextual`). -/
structure BinderInfo where
  implicit : Bool := false
  contextual : Bool := false
  strictImplicit : Bool := false
  instImplicit : Bool := false
deriving DecidableEq, Repr

/-- `is_explicit(binder_info)`: none of the implicit flags is set. -/
def BinderInfo.isExplicit (bi : BinderInfo) : Bool :=
  !(bi.implicit || bi.strictImplicit || bi.instImplicit)

/-- Expressions. The base variants (`Var`, `Sort`, `Constant`, `Meta`,
`Local`, `App`, `Lambda`, `Pi`, `Macro`) mirror `kernel/expr.h`; the macro
payloads are specialised to the annotation forms `pp.cpp` actually consumes
(`library/annotation.h`, `library/let.h`, `library/typed_expr.h`,
`library/explicit.h`, `library/placeholder.h` — all outside the source under
review), faithful to their accessors:

* `annot n a` — an annotation macro named `n` wrapping `a` (have/show);
* `letM n v b` — the let macro with variable name `n`, value `v`, body `b`
  (the body is stored with the value substituted, `pp_let` re-abstracts it);
* `letVal v` — the let-value wrapper;
* `typedE ty e` — the typed-expression wrapper;
* `explicitE e` — the explicit-application marker;
* `placeholderE` — the expression placeholder. -/
inductive Expr where
  | var (i : Nat)
  | sort (l : Level)
  | const (n : Name) (ls : List Level)
  | meta (idn : Name) (ty : Expr)
  | localE (idn ppn : Name) (ty : Expr) (bi : BinderInfo)
  | app (f a : Expr)
  | lam (n : Name) (dom body : Expr) (bi : BinderInfo)
  | pi (n : Name) (dom body : Expr) (bi : BinderInfo)
  | annot (an : Name) (arg : Expr)
  | letM (n : Name) (v b : Expr)
  | letVal (v : Expr)
  | typedE (ty e : Expr)
  | explicitE (e : Expr)
  | placeholderE
deriving DecidableEq, Repr

namespace Expr

/-- The base-variant classification of `expr::kind()`. The macro-encoded
annotation forms all report kind `Macro`. -/
inductive Kind where
  | Var | Sort | Constant | Meta | Local | App | Lambda | Pi | Macro
deriving DecidableEq, Repr

/-- `e.kind()`. -/
def kind : Expr → Kind
  | var _ => .Var
  | sort _ => .Sort
  | const _ _ => .Constant
  | meta _ _ => .Meta
  | localE _ _ _ _ => .Local
  | app _ _ => .App
  | lam _ _ _ _ => .Lambda
  | pi _ _ _ _ => .Pi
  | _ => .Macro

/-- `is_var`. -/
def isVar : Expr → Bool
  | var _ => true
  | _ => false

/-- `is_app`. -/
def isApp : Expr → Bool
  | app _ _ => true
  | _ => false

/-- `is_constant`. -/
def isConstant : Expr → Bool
  | const _ _ => true
  | _ => false

/-- `is_sort`. -/
def isSort : Expr → Bool
  | sort _ => true
  | _ => false

/-- `is_metavar`. -/
def isMetavar : Expr → Bool
  | meta _ _ => true
  | _ => false

/-- `is_local`. -/
def isLocal : Expr → Bool
  | localE _ _ _ _ => true
  | _ => false

/-- `is_lambda`. -/
def isLambda : Expr → Bool
  | lam _ _ _ _ => true
  | _ => false

/-- `is_pi`. -/
def isPi : Expr → Bool
  | pi _ _ _ _ => true
  | _ => false

/-- `var_idx` (0 for non-vars; `pp.cpp` only calls it on vars). -/
def varIdx : Expr → Nat
  | var i => i
  | _ => 0

/-- `app_fn` (identity on non-applications, never so used). -/
def appFn : Expr → Expr
  | app f _ => f
  | e => e

/-- `app_arg` (identity on non-applications, never so used). -/
def appArg : Expr → Expr
  | app _ a => a
  | e => e

/-- `get_app_fn`: the head of an iterated application. -/
def getAppFn : Expr → Expr
  | app f _ => getAppFn f
  | e => e

/-- `get_app_args`: head and argument list (earliest-applied first, so the
last list element is the outermost `app_arg`), as the C++ buffer is filled. -/
def getAppArgs : Expr → Expr × List Expr
  | app f a =>
    let (fn, as) := getAppArgs f
    (fn, as ++ [a])
  | e => (e, [])

/-- `is_meta` on expressions (`kernel/for_each_fn.h` helper): is the head of
the application spine a metavariable? -/
def isMetaApp (e : Expr) : Bool := (getAppFn e).isMetavar

/-- `const_name`. -/
def constName : Expr → Name
  | const n _ => n
  | _ => .anonymous

/-- `const_levels`. -/
def constLevels : Expr → List Level
  | const _ ls => ls
  | _ => []

/-- `update_constant`: replace the level list. -/
def updateConstant : Expr → List Level → Expr
  | const n _, ls => const n ls
  | e, _ => e

/-- `sort_level`. -/
def sortLevel : Expr → Level
  | sort l => l
  | _ => .zero

/-- `update_sort`. -/
def updateSort : Expr → Level → Expr
  | sort _, l => sort l
  | e, _ => e

/-- `mlocal_name`: the identity of a metavariable or local constant. -/
def mlocalName : Expr → Name
  | meta idn _ => idn
  | localE idn _ _ _ => idn
  | _ => .anonymous

/-- `mlocal_type`. -/
def mlocalType : Expr → Expr
  | meta _ ty => ty
  | localE _ _ ty _ => ty
  | e => e

/-- `local_pp_name`. -/
def localPpName : Expr → Name
  | localE _ ppn _ _ => ppn
  | e => e.mlocalName

/-- `local_info`. -/
def localInfo : Expr → BinderInfo
  | localE _ _ _ bi => bi
  | _ => {}

/-- `binding_name` of a lambda or pi. -/
def bindingName : Expr → Name
  | lam n _ _ _ => n
  | pi n _ _ _ => n
  | _ => .anonymous

/-- `binding_domain`. -/
def bindingDomain : Expr → Expr
  | lam _ d _ _ => d
  | pi _ d _ _ => d
  | e => e

/-- `binding_body`. -/
def bindingBody : Expr → Expr
  | lam _ _ b _ => b
  | pi _ _ b _ => b
  | e => e

/-- `binding_info`. -/
def bindingInfo : Expr → BinderInfo
  | lam _ _ _ bi => bi
  | pi _ _ _ bi => bi
  | _ => {}

/-- `mk_constant n`: a constant with no level arguments. -/
def mkConstant (n : Name) : Expr := const n []

/-- `mk_metavar`. -/
def mkMetavar (n : Name) (ty : Expr) : Expr := meta n ty

/-- `mk_local(name, pp_name, type, binder_info)`. -/
def mkLocal (idn ppn : Name) (ty : Expr) (bi : BinderInfo) : Expr := localE idn ppn ty bi

/-- Annotation accessors (`library/annotation.h`): `is_annotation(e, name)`. -/
def isAnnot (e : Expr) (n : Name) : Bool :=
  match e with
  | annot an _ => an = n
  | _ => false

/-- `get_annotation_arg`. -/
def getAnnotationArg : Expr → Expr
  | annot _ a => a
  | e => e

/-- `is_let` (`library/let.h`). -/
def isLet : Expr → Bool
  | letM _ _ _ => true
  | _ => false

/-- `get_let_var_name`. -/
def getLetVarName : Expr → Name
  | letM n _ _ => n
  | _ => .anonymous

/-- `get_let_value`. -/
def getLetValue : Expr → Expr
  | letM _ v _ => v
  | e => e

/-- `get_let_body`. -/
def getLetBody : Expr → Expr
  | letM _ _ b => b
  | e => e

/-- `is_let_value`. -/
def isLetValue : Expr → Bool
  | letVal _ => true
  | _ => false

/-- `get_let_value_expr`. -/
def getLetValueExpr : Expr → Expr
  | letVal v => v
  | e => e

/-- `is_typed_expr` (`library/typed_expr.h`). -/
def isTypedExpr : Expr → Bool
  | typedE _ _ => true
  | _ => false

/-- `get_typed_expr_expr`. -/
def getTypedExprExpr : Expr → Expr
  | typedE _ e => e
  | e => e

/-- `is_explicit` (`library/explicit.h`). -/
def isExplicit : Expr → Bool
  | explicitE _ => true
  | _ => false

/-- `get_explicit_arg`. -/
def getExplicitArg : Expr → Expr
  | explicitE e => e
  | e => e

/-- `is_placeholder` on expressions (`library/placeholder.h`). -/
def isPlaceholderE : Expr → Bool
  | placeholderE => true
  | _ => false

/-- `is_have_annotation`-based `is_have` (pp.cpp line 462). -/
def isHave (e : Expr) : Bool := e.isApp && (e.appFn.isAnnot "have")

/-- `is_show` (pp.cpp lines 463-466). -/
def isShow (e : Expr) : Bool :=
  e.isAnnot "show" && e.getAnnotationArg.isApp && e.getAnnotationArg.appFn.isLambda

/-- Name of the defining macro, for `macro_def(e).get_name()` in the generic
macro printer. -/
def macroDefName : Expr → Name
  | annot an _ => an
  | letM _ _ _ => "let"
  | letVal _ => "lv"
  | typedE _ _ => "typed_expr"
  | explicitE _ => "@"
  | placeholderE => "placeholder"
  | _ => .anonymous

/-- `macro_num_args` / `macro_arg` as a list, in argument order. -/
def macroArgs : Expr → List Expr
  | annot _ a => [a]
  | letM _ v b => [v, b]
  | letVal v => [v]
  | typedE ty e => [ty, e]
  | explicitE e => [e]
  | _ => []

/-- Does a variable with de Bruijn index `≥ k` occur free? (`kernel/free_vars.h`;
`closed e = !hasFreeVarGe e 0`). Metavariable and local types are part of the
expression tree and are traversed, as the kernel does. -/
def hasFreeVarGe : Expr → Nat → Bool
  | var i, k => k ≤ i
  | sort _, _ => false
  | const _ _, _ => false
  | meta _ ty, k => hasFreeVarGe ty k
  | localE _ _ ty _, k => hasFreeVarGe ty k
  | app f a, k => hasFreeVarGe f k || hasFreeVarGe a k
  | lam _ d b _, k => hasFreeVarGe d k || hasFreeVarGe b (k+1)
  | pi _ d b _, k => hasFreeVarGe d k || hasFreeVarGe b (k+1)
  | annot _ a, k => hasFreeVarGe a k
  | letM _ v b, k => hasFreeVarGe v k || hasFreeVarGe b k
  | letVal v, k => hasFreeVarGe v k
  | typedE ty e, k => hasFreeVarGe ty k || hasFreeVarGe e k
  | explicitE e, k => hasFreeVarGe e k
  | placeholderE, _ => false

/-- `closed(e)`. -/
def closed (e : Expr) : Bool := !e.hasFreeVarGe 0

/-- `lift_free_vars(e, d)`: shift free variables up by `d`
(`kernel/free_vars.h`). -/
def liftFreeVars (d : Nat) : Expr → Nat → Expr
  | var i, k => if k ≤ i then var (i + d) else var i
  | sort l, _ => sort l
  | const n ls, _ => const n ls
  | meta idn ty, k => meta idn (liftFreeVars d ty k)
  | localE idn ppn ty bi, k => localE idn ppn (liftFreeVars d ty k) bi
  | app f a, k => app (liftFreeVars d f k) (liftFreeVars d a k)
  | lam n dm b bi, k => lam n (liftFreeVars d dm k) (liftFreeVars d b (k+1)) bi
  | pi n dm b bi, k => pi n (liftFreeVars d dm k) (liftFreeVars d b (k+1)) bi
  | annot an a, k => annot an (liftFreeVars d a k)
  | letM n v b, k => letM n (liftFreeVars d v k) (liftFreeVars d b k)
  | letVal v, k => letVal (liftFreeVars d v k)
  | typedE ty e, k => typedE (liftFreeVars d ty k) (liftFreeVars d e k)
  | explicitE e, k => explicitE (liftFreeVars d e k)
  | placeholderE, _ => placeholderE

/-- `abstract(e, v)` (`kernel/abstract.h`): replace each occurrence of the
closed value `v` by the bound variable whose index is the number of binders
crossed. -/
def abstractAux (v : Expr) : Expr → Nat → Expr
  | e, k =>
    if e = v then var k
    else match e with
      | app f a => app (abstractAux v f k) (abstractAux v a k)
      | lam n dm b bi => lam n (abstractAux v dm k) (abstractAux v b (k+1)) bi
      | pi n dm b bi => pi n (abstractAux v dm k) (abstractAux v b (k+1)) bi
      | meta idn ty => meta idn (abstractAux v ty k)
      | localE idn ppn ty bi => localE idn ppn (abstractAux v ty k) bi
      | annot an a => annot an (abstractAux v a k)
      | letM n vv b => letM n (abstractAux v vv k) (abstractAux v b k)
      | letVal vv => letVal (abstractAux v vv k)
      | typedE ty e => typedE (abstractAux v ty k) (abstractAux v e k)
      | explicitE e => explicitE (abstractAux v e k)
      | e => e

/-- `abstract(e, v)` at the outermost level. -/
def abstractE (e v : Expr) : Expr := abstractAux v e 0

/-- `instantiate(b, c)` (`kernel/instantiate.h`) for a closed substituent `c`:
replace the bound variable at the instantiation depth by `c` and lower the
free variables above it. -/
def instantiateAux (c : Expr) : Expr → Nat → Expr
  | var i, k => if i = k then c else if k < i then var (i - 1) else var i
  | sort l, _ => sort l
  | const n ls, _ => const n ls
  | meta idn ty, k => meta idn (instantiateAux c ty k)
  | localE idn ppn ty bi, k => localE idn ppn (instantiateAux c ty k) bi
  | app f a, k => app (instantiateAux c f k) (instantiateAux c a k)
  | lam n dm b bi, k => lam n (instantiateAux c dm k) (instantiateAux c b (k+1)) bi
  | pi n dm b bi, k => pi n (instantiateAux c dm k) (instantiateAux c b (k+1)) bi
  | annot an a, k => annot an (instantiateAux c a k)
  | letM n v b, k => letM n (instantiateAux c v k) (instantiateAux c b k)
  | letVal v, k => letVal (instantiateAux c v k)
  | typedE ty e, k => typedE (instantiateAux c ty k) (instantiateAux c e k)
  | explicitE e, k => explicitE (instantiateAux c e k)
  | placeholderE, _ => placeholderE

/-- `instantiate(b, c)` at the outermost level. -/
def instantiateE (b c : Expr) : Expr := instantiateAux c b 0

/-- `has_expr_metavar` (`kernel/expr.h` flag). -/
def hasExprMetavar : Expr → Bool
  | var _ => false
  | sort _ => false
  | const _ _ => false
  | meta _ _ => true
  | localE _ _ ty _ => hasExprMetavar ty
  | app f a => hasExprMetavar f || hasExprMetavar a
  | lam _ d b _ => hasExprMetavar d || hasExprMetavar b
  | pi _ d b _ => hasExprMetavar d || hasExprMetavar b
  | annot _ a => hasExprMetavar a
  | letM _ v b => hasExprMetavar v || hasExprMetavar b
  | letVal v => hasExprMetavar v
  | typedE ty e => hasExprMetavar ty || hasExprMetavar e
  | explicitE e => hasExprMetavar e
  | placeholderE => false

/-- `has_local` (`kernel/expr.h` flag). -/
def hasLocal : Expr → Bool
  | var _ => false
  | sort _ => false
  | const _ _ => false
  | meta _ ty => hasLocal ty
  | localE _ _ _ _ => true
  | app f a => hasLocal f || hasLocal a
  | lam _ d b _ => hasLocal d || hasLocal b
  | pi _ d b _ => hasLocal d || hasLocal b
  | annot _ a => hasLocal a
  | letM _ v b => hasLocal v || hasLocal b
  | letVal v => hasLocal v
  | typedE ty e => hasLocal ty || hasLocal e
  | explicitE e => hasLocal e
  | placeholderE => false

/-- `has_univ_metavar` (`kernel/expr.h` flag). -/
def hasUnivMetavar : Expr → Bool
  | var _ => false
  | sort l => l.hasMeta
  | const _ ls => ls.any Level.hasMeta
  | meta _ ty => hasUnivMetavar ty
  | localE _ _ ty _ => hasUnivMetavar ty
  | app f a => hasUnivMetavar f || hasUnivMetavar a
  | lam _ d b _ => hasUnivMetavar d || hasUnivMetavar b
  | pi _ d b _ => hasUnivMetavar d || hasUnivMetavar b
  | annot _ a => hasUnivMetavar a
  | letM _ v b => hasUnivMetavar v || hasUnivMetavar b
  | letVal v => hasUnivMetavar v
  | typedE ty e => hasUnivMetavar ty || hasUnivMetavar e
  | explicitE e => hasUnivMetavar e
  | placeholderE => false

/-- Does the name `n` occur in `e` as a constant's name?  Used by the model of
`pick_unused_name`. -/
def constNameUsed : Expr → Name → Bool
  | var _, _ => false
  | sort _, _ => false
  | const cn _, n => cn = n
  | meta _ ty, n => constNameUsed ty n
  | localE _ _ ty _, n => constNameUsed ty n
  | app f a, n => constNameUsed f n || constNameUsed a n
  | lam _ d b _, n => constNameUsed d n || constNameUsed b n
  | pi _ d b _, n => constNameUsed d n || constNameUsed b n
  | annot _ a, n => constNameUsed a n
  | letM _ v b, n => constNameUsed v n || constNameUsed b n
  | letVal v, n => constNameUsed v n
  | typedE ty e, n => constNameUsed ty n || constNameUsed e n
  | explicitE e, n => constNameUsed e n
  | placeholderE, _ => false

end Expr

/-- Abstract formatting trees (`util/sexpr/format.h`, external): the
constructors `pp.cpp` uses — literal text, composition, indentation, grouping,
line breaks and highlighting. -/
inductive Format where
  | text (s : String)
  | compose (a b : Format)
  | nest (n : Nat) (f : Format)
  | line
  | group (f : Format)
  | highlight (f : Format)
  | highlightKeyword (f : Format)
deriving DecidableEq, Repr

namespace Format

/-- `format(string)` coercion. -/
instance : Coe String Format := ⟨Format.text⟩

/-- `f1 + f2` on formats is composition. -/
instance : Add Format := ⟨Format.compose⟩

/-- `format(name)`. -/
def ofName (n : Name) : Format := text n.toStr

/-- `format(unsigned)` / `format(mpz)`. -/
def ofNat (n : Nat) : Format := text (natToStr n)

/-- `space()`. -/
def space : Format := text " "

/-- `comma()`. -/
def comma : Format := text ","

/-- `colon()`. -/
def colon : Format := text ":"

/-- `paren(f)`: wrap in parentheses (modelled from the layout library's
interface; the grouping detail is irrelevant to the properties proved). -/
def paren (f : Format) : Format := group (nest 1 (compose (text "(") (compose f (text ")"))))

/-- Does `sub` occur as a subtree of `f`?  Used to state that an ellipsis
marker occurs in a rendering. -/
def contains (f sub : Format) : Bool :=
  (f = sub) ||
  match f with
  | compose a b => contains a sub || contains b sub
  | nest _ g => contains g sub
  | group g => contains g sub
  | highlight g => contains g sub
  | highlightKeyword g => contains g sub
  | _ => false

end Format

/-- `max_bp()`: the maximal binding power of the token table (its exact value
is immaterial to the proofs; the token table is external). -/
def maxBp : Nat := 1024

/-- `get_arrow_prec()` (external token-table constant). -/
def getArrowPrec : Nat := 25

/-- The `pretty_fn::result` value (declared in `frontends/lean/pp.h`, which is
not part of the source under review): a formatted fragment with left/right
binding powers.  Modelled from the spec: "a formatted fragment plus its
left/right binding powers"; the fragment-only constructor uses the maximal
binding power (atoms never need parentheses) and "a single-binding-power
constructor sets both sides equal". -/
structure Result where
  lbp : Nat
  rbp : Nat
  fmt : Format
deriving DecidableEq, Repr

/-- `result(fmt)`. -/
def Result.ofFmt (f : Format) : Result := ⟨maxBp, maxBp, f⟩

/-- `result(bp, fmt)`. -/
def Result.ofBp (bp : Nat) (f : Format) : Result := ⟨bp, bp, f⟩

/-- `result(lbp, rbp, fmt)`. -/
def Result.mk3 (lbp rbp : Nat) (f : Format) : Result := ⟨lbp, rbp, f⟩

/-- The fixed formats initialized by `initialize_pp()` (pp.cpp lines 53-74). -/
def ellipsisNFmt : Format := .highlight (.text "…")
def ellipsisFmt : Format := .highlight (.text "...")
def placeholderFmt : Format := .highlight (.text "_")
def lambdaNFmt : Format := .highlightKeyword (.text "λ")
def lambdaFmt : Format := .highlightKeyword (.text "fun")
def forallNFmt : Format := .highlightKeyword (.text "∀")
def forallFmt : Format := .highlightKeyword (.text "forall")
def piNFmt : Format := .highlightKeyword (.text "Π")
def piFmt : Format := .highlightKeyword (.text "Pi")
def arrowNFmt : Format := .highlightKeyword (.text "→")
def arrowFmt : Format := .highlightKeyword (.text "->")
def letFmt : Format := .highlightKeyword (.text "let")
def inFmt : Format := .highlightKeyword (.text "in")
def assignFmt : Format := .highlightKeyword (.text ":=")
def haveFmt : Format := .highlightKeyword (.text "have")
def fromFmt : Format := .highlightKeyword (.text "from")
def visibleFmt : Format := .highlightKeyword (.text "[visible]")
def showFmt : Format := .highlightKeyword (.text "show")
def explicitFmt : Format := .highlightKeyword (.text "@")

/-- Transition actions of a notation entry
(`frontends/lean/parser_config.h`, external; named `NAction` here because
Mathlib occupies `Action`).  `Expr` carries the right binding power
`a.rbp()`. -/
inductive NAction where
  | Skip
  | Expr (rbp : Nat)
  | Exprs
  | Binder
  | Binders
  | ScopedExpr
  | Ext
  | LuaExt
deriving DecidableEq, Repr

/-- A transition: a token plus an action. -/
structure Transition where
  token : Name
  action : NAction
deriving DecidableEq, Repr

/-- A notation entry (external, read-only): transitions, the pattern
expression (`get_expr`), the nud/led flag (`is_nud`), the ASCII-safety flag
(`is_safe_ascii`) and the numeral shortcut (`is_numeral` / `get_num`). -/
structure NotationEntry where
  transitions : List Transition
  pat : Expr
  nud : Bool
  safeAscii : Bool
  numeral : Option Nat
deriving DecidableEq, Repr

/-- `notation_entry::is_numeral()`. -/
def NotationEntry.isNumeral (e : NotationEntry) : Bool := e.numeral.isSome

/-- The environment interface consumed by `pp.cpp` (type checker,
environment/namespace registry, token table, numeral recognizer and beta
reducer are all external collaborators; each field is exactly one call the
core makes).  Failure-capable calls return `Option` — a thrown exception is
`none`. -/
structure PPEnv where
  /-- `get_notation_entries(env, head_index(e))`. -/
  entriesFor : Expr → List NotationEntry := fun _ => []
  /-- `is_coercion(env, f)`: `(target-name, arity-cutoff)`. -/
  coercionOf : Expr → Option (Name × Nat) := fun _ => none
  /-- `is_expr_aliased(env, n)`. -/
  aliasOf : Name → Option Name := fun _ => none
  /-- `get_namespaces(env)`. -/
  namespaces : List Name := []
  /-- `env.find(n)`: is a declaration named `n` present? -/
  findDecl : Name → Bool := fun _ => false
  /-- `hidden_to_user_name(env, n)`. -/
  hiddenToUser : Name → Option Name := fun _ => none
  /-- `env.impredicative()`. -/
  impredicative : Bool := true
  /-- `get_precedence(token_table, tk)`. -/
  tokenPrec : Name → Option Nat := fun _ => none
  /-- `m_tc.infer(e)` (first component; exceptions are `none`). -/
  infer : Expr → Option Expr := fun _ => none
  /-- `m_tc.whnf(e)`. -/
  whnf : Expr → Option Expr := fun _ => none
  /-- `m_tc.ensure_pi(e)`. -/
  ensurePi : Expr → Option Expr := fun _ => none
  /-- `m_tc.is_prop(e)`. -/
  isPropTc : Expr → Option Bool := fun _ => none
  /-- `to_num(e)` (`library/num.h`). -/
  toNum : Expr → Option Nat := fun _ => none
  /-- `beta_reduce(e)` (kernel helper used when `pp.beta` is set). -/
  betaReduce : Expr → Expr := id

/-- The option snapshot `set_options_core` extracts (pp.cpp lines 159-173);
field names follow the `m_*` members (`m_implict` keeps the source's
spelling). -/
structure PPOpts where
  indent : Nat := 2
  maxDepth : Nat := 64
  maxSteps : Nat := 5000
  implict : Bool := false
  unicode : Bool := true
  coercion : Bool := true
  notationOpt : Bool := true
  universes : Bool := false
  fullNames : Bool := false
  privateNames : Bool := false
  metavarArgs : Bool := false
  beta : Bool := false
deriving DecidableEq, Repr

/-- The read-only context of one `pretty_fn`: environment plus options. -/
structure PPCfg where
  env : PPEnv
  opts : PPOpts

/-- The purification tables (mutable members of `pretty_fn`):
`m_purify_meta_table`, `m_purify_local_table`, `m_purify_used_locals`,
`m_next_meta_idx` and `m_meta_prefix`.  Tables are association lists with
first-match lookup. -/
structure PurifySt where
  metaTable : List (Name × Name) := []
  localTable : List (Name × Name) := []
  usedLocals : List Name := []
  nextMetaIdx : Nat := 1
  metaPfx : Name := "M"
deriving DecidableEq, Repr

/-- Association-list lookup (`rb_map::find`). -/
def alookup (t : List (Name × Name)) (k : Name) : Option Name :=
  match t with
  | [] => none
  | (k', v) :: t' => if k = k' then some v else alookup t' k

/-- `pretty_fn::mk_metavar_name` (pp.cpp lines 99-106). -/
def mkMetavarName (st : PurifySt) (m : Name) : Name × PurifySt :=
  match alookup st.metaTable m with
  | some r => (r, st)
  | none =>
    let newM := st.metaPfx.appendAfter st.nextMetaIdx
    (newM, { st with metaTable := (m, newM) :: st.metaTable, nextMetaIdx := st.nextMetaIdx + 1 })

/-- The fresh-name search of `pretty_fn::mk_local_name` (pp.cpp lines
111-116): try `suggested`, then `suggested1`, `suggested2`, … and return the
first name not contained in the used set.  The candidate sequence is the
source's; the search is bounded by the (finite) used set plus one, which by
injectivity of `append_after` always suffices. -/
def freshLocalName (used : List Name) (suggested : Name) : Name :=
  if suggested ∉ used then suggested
  else
    match (List.range (used.length + 1)).map (fun i => suggested.appendAfter (i+1))
          |>.find? (fun r => r ∉ used) with
    | some r => r
    | none => suggested.appendAfter (used.length + 1)

/-- `pretty_fn::mk_local_name` (pp.cpp lines 108-120). -/
def mkLocalName (st : PurifySt) (n suggested : Name) : Name × PurifySt :=
  match alookup st.localTable n with
  | some r => (r, st)
  | none =>
    let r := freshLocalName st.usedLocals suggested
    (r, { st with usedLocals := r :: st.usedLocals, localTable := (n, r) :: st.localTable })

/-- `pretty_fn::purify(level)` (pp.cpp lines 122-132): the `replace` traversal
with its per-node guard inlined (`kernel/replace_fn` visits a node, and a
returned value stops descent). -/
def purifyLevelCore (st : PurifySt) (l : Level) : Level × PurifySt :=
  match l with
  | .mvar m =>
    if !(Level.mvar m).hasMeta then (.mvar m, st)
    else
      let (nm, st') := mkMetavarName st m
      (.mvar nm, st')
  | .succ l1 =>
    if !(Level.succ l1).hasMeta then (.succ l1, st)
    else
      let (l1', st') := purifyLevelCore st l1
      (.succ l1', st')
  | .max a b =>
    if !(Level.max a b).hasMeta then (.max a b, st)
    else
      let (a', st1) := purifyLevelCore st a
      let (b', st2) := purifyLevelCore st1 b
      (.max a' b', st2)
  | .imax a b =>
    if !(Level.imax a b).hasMeta then (.imax a b, st)
    else
      let (a', st1) := purifyLevelCore st a
      let (b', st2) := purifyLevelCore st1 b
      (.imax a' b', st2)
  | l => (l, st)

/-- `pretty_fn::purify(level)` including its enabling guard. -/
def purifyLevel (universes : Bool) (st : PurifySt) (l : Level) : Level × PurifySt :=
  if !universes || !l.hasMeta then (l, st)
  else purifyLevelCore st l

/-- State-threaded purification of a constant's level list (`map` over
`const_levels` in pp.cpp line 151). -/
def purifyLevels (universes : Bool) (st : PurifySt) : List Level → List Level × PurifySt
  | [] => ([], st)
  | l :: ls =>
    let (l', st1) := purifyLevel universes st l
    let (ls', st2) := purifyLevels universes st1 ls
    (l' :: ls', st2)

/-- The per-node guard of `pretty_fn::purify(expr)` (pp.cpp lines 141 and
144): the subtree is returned unchanged when it can contain nothing to
rename. -/
def purifySkip (universes : Bool) (e : Expr) : Bool :=
  !e.hasExprMetavar && !e.hasLocal && (!universes || !e.hasUnivMetavar)

/-- `pretty_fn::purify(expr)` (pp.cpp lines 140-157): the `replace` traversal
with the replacement function inlined.  A node where the function returns a
value is not descended into (so metavariable/local types stay untouched);
otherwise the children are rebuilt left-to-right, which reproduces the
encounter order of the C++ traversal. -/
def purifyExpr (universes : Bool) (st : PurifySt) (e : Expr) : Expr × PurifySt :=
  if purifySkip universes e then (e, st)
  else match e with
    | .meta m ty =>
      let (nm, st') := mkMetavarName st m
      (.meta nm ty, st')
    | .localE idn ppn ty bi =>
      let (nm, st') := mkLocalName st idn ppn
      (.localE idn nm ty bi, st')
    | .const n ls =>
      let (ls', st') := purifyLevels universes st ls
      (.const n ls', st')
    | .sort l =>
      let (l', st') := purifyLevel universes st l
      (.sort l', st')
    | .app f a =>
      let (f', st1) := purifyExpr universes st f
      let (a', st2) := purifyExpr universes st1 a
      (.app f' a', st2)
    | .lam n d b bi =>
      let (d', st1) := purifyExpr universes st d
      let (b', st2) := purifyExpr universes st1 b
      (.lam n d' b' bi, st2)
    | .pi n d b bi =>
      let (d', st1) := purifyExpr universes st d
      let (b', st2) := purifyExpr universes st1 b
      (.pi n d' b' bi, st2)
    | .annot an a =>
      let (a', st') := purifyExpr universes st a
      (.annot an a', st')
    | .letM n v b =>
      let (v', st1) := purifyExpr universes st v
      let (b', st2) := purifyExpr universes st1 b
      (.letM n v' b', st2)
    | .letVal v =>
      let (v', st') := purifyExpr universes st v
      (.letVal v', st')
    | .typedE ty x =>
      let (ty', st1) := purifyExpr universes st ty
      let (x', st2) := purifyExpr universes st1 x
      (.typedE ty' x', st2)
    | .explicitE x =>
      let (x', st') := purifyExpr universes st x
      (.explicitE x', st')
    | e => (e, st)

/-- Does the bound variable with index exactly `k` occur free
(`has_free_var(e, k)`, used by `is_arrow`)? -/
def Expr.hasFreeVarIdx : Expr → Nat → Bool
  | .var i, k => i = k
  | .sort _, _ => false
  | .const _ _, _ => false
  | .meta _ ty, k => ty.hasFreeVarIdx k
  | .localE _ _ ty _, k => ty.hasFreeVarIdx k
  | .app f a, k => f.hasFreeVarIdx k || a.hasFreeVarIdx k
  | .lam _ d b _, k => d.hasFreeVarIdx k || b.hasFreeVarIdx (k+1)
  | .pi _ d b _, k => d.hasFreeVarIdx k || b.hasFreeVarIdx (k+1)
  | .annot _ a, k => a.hasFreeVarIdx k
  | .letM _ v b, k => v.hasFreeVarIdx k || b.hasFreeVarIdx k
  | .letVal v, k => v.hasFreeVarIdx k
  | .typedE ty e, k => ty.hasFreeVarIdx k || e.hasFreeVarIdx k
  | .explicitE e, k => e.hasFreeVarIdx k
  | .placeholderE, _ => false

/-- `is_arrow(e)` (kernel): a dependent product whose body does not use the
bound variable. -/
def Expr.isArrow (e : Expr) : Bool := e.isPi && !(e.bindingBody.hasFreeVarIdx 0)

/-- `is_default_arrow` (pp.cpp lines 433-435). -/
def isDefaultArrow (e : Expr) : Bool := e.isArrow && e.bindingInfo = ({} : BinderInfo)

/-- Number of constant nodes of an expression (a bound for the fresh-name
search of `pick_unused_name`). -/
def constCount : Expr → Nat
  | .var _ => 0
  | .sort _ => 0
  | .const _ _ => 1
  | .meta _ ty => constCount ty
  | .localE _ _ ty _ => constCount ty
  | .app f a => constCount f + constCount a
  | .lam _ d b _ => constCount d + constCount b
  | .pi _ d b _ => constCount d + constCount b
  | .annot _ a => constCount a
  | .letM _ v b => constCount v + constCount b
  | .letVal v => constCount v
  | .typedE ty e => constCount ty + constCount e
  | .explicitE e => constCount e
  | .placeholderE => 0

/-- Modelled from the spec: `pick_unused_name(b, n)` (declared outside the
source under review) chooses a capture-avoiding display name — `n` itself if
no constant named `n` occurs in `b`, else the first `n1`, `n2`, … that is
free.  The search is bounded by the number of constants of `b` plus one,
which always suffices. -/
def pickUnusedName (b : Expr) (n : Name) : Name :=
  if !b.constNameUsed n then n
  else match (List.range (constCount b + 1)).map (fun i => n.appendAfter (i+1))
        |>.find? (fun r => !b.constNameUsed r) with
    | some r => r
    | none => n.appendAfter (constCount b + 1)

/-- Modelled from the spec: `binding_body_fresh(b, true)` (declared in
`frontends/lean/pp.h`, outside the source under review) instantiates the
outermost binder's body with a freshly named local constant carrying the
binder's domain and info, choosing the name collision-avoidingly; it returns
(instantiated body, the new local). -/
def bindingBodyFresh (b : Expr) : Expr × Expr :=
  let n := pickUnusedName b.bindingBody b.bindingName
  let lc := Expr.mkLocal n n b.bindingDomain b.bindingInfo
  (b.bindingBody.instantiateE lc, lc)

/-- `pretty_fn::is_implicit` (pp.cpp lines 185-198): inference failures are
caught and mean "not implicit". -/
def isImplicit (cfg : PPCfg) (f : Expr) : Bool :=
  if cfg.opts.implict then false
  else if !f.closed then false
  else match cfg.env.infer f with
    | none => false
    | some t =>
      match cfg.env.ensurePi t with
      | none => false
      | some piTy =>
        let bi := piTy.bindingInfo
        bi.implicit || bi.strictImplicit || bi.instImplicit

/-- `pretty_fn::is_prop` (pp.cpp lines 200-206). -/
def isProp (cfg : PPCfg) (e : Expr) : Bool :=
  cfg.env.impredicative && (cfg.env.isPropTc e).getD false

/-- The `while (is_pi(type))` loop of `pretty_fn::has_implicit_args`
(pp.cpp lines 349-356), with a structural fuel bound standing for the
C++ loop; exhausted fuel behaves like an inference failure (`false`). -/
def hasImplicitArgsLoop (cfg : PPCfg) : Nat → Expr → Nat → Bool
  | 0, _, _ => false
  | f+1, ty, i =>
    match ty with
    | .pi n d b bi =>
      if bi.implicit || bi.strictImplicit || bi.instImplicit then true
      else
        let lc := Expr.mkLocal (Name.num "tmp" i) n d bi
        match cfg.env.whnf (b.instantiateE lc) with
        | none => false
        | some ty' => hasImplicitArgsLoop cfg f ty' (i+1)
    | _ => false

/-- `pretty_fn::has_implicit_args` (pp.cpp lines 341-360). -/
def hasImplicitArgs (cfg : PPCfg) (fuel : Nat) (f : Expr) : Bool :=
  if !f.closed then false
  else match cfg.env.infer f with
    | none => false
    | some t =>
      match cfg.env.whnf t with
      | none => false
      | some ty => hasImplicitArgsLoop cfg fuel ty 0

/-- `pretty_fn::match(level, level)` (pp.cpp lines 586-596): the relaxed
level equality used by notation matching. -/
def matchLevel (universes : Bool) (p l : Level) : Bool :=
  if p = l then true
  else if universes then false
  else if p.isPlaceholder then true
  else match p, l with
    | .succ p1, .succ l1 => matchLevel universes p1 l1
    | _, _ => false

/-- The elementwise level-list walk of the constant case of
`pretty_fn::match` (pp.cpp lines 615-623): fails when the second list is
exhausted first. -/
def matchLevels (universes : Bool) : List Level → List Level → Bool
  | [], _ => true
  | _ :: _, [] => false
  | p :: ps, l :: ls => matchLevel universes p l && matchLevels universes ps ls

/-- `get_num_parameters` (pp.cpp lines 563-584). -/
def getNumParameters (entry : NotationEntry) : Nat :=
  if entry.isNumeral then 0
  else
    let base := if !entry.nud then 1 else 0
    base + (entry.transitions.filter (fun t =>
      match t.action with
      | .Expr _ | .Exprs | .ScopedExpr | .Ext | .LuaExt => true
      | _ => false)).length

/-- `get_some_precedence` (pp.cpp lines 668-677): a token-table miss yields
precedence 0 (both C++ branches query the table by the token's string; the
table is modelled directly on names). -/
def getSomePrecedence (cfg : PPCfg) (tk : Name) : Nat :=
  (cfg.env.tokenPrec tk).getD 0

mutual

/-- `pretty_fn::match(expr, expr, buffer)` (pp.cpp lines 598-666): structural
unification of a notation pattern against a term, filling the match
environment.  The buffer is threaded functionally: `some args'` is the C++
`true` with the mutated buffer, `none` is `false`.  `fuel` is the structural
recursion bound; every source-level recursive call consumes one unit and
exhaustion yields failure.  Note line 614 of the source: the term-side level
list is read from the pattern `p`, not from `e` — this is embedded as found. -/
def matchE (cfg : PPCfg) : Nat → Expr → Expr → List (Option Expr) →
    Option (List (Option Expr))
  | 0, _, _, _ => none
  | fuel+1, p, e, args =>
    if p.isExplicit then matchE cfg fuel p.getExplicitArg e args
    else if p.isVar then
      let vidx := p.varIdx
      if args.length ≤ vidx then none
      else
        let i := args.length - vidx - 1
        match args.get? i with
        | some (some a) => if a = e then some args else none
        | _ => some (args.set i (some e))
    else if p.isPlaceholderE then some args
    else if p.isConstant && e.isConstant then
      if matchLevels cfg.opts.universes p.constLevels p.constLevels then some args else none
    else if p.isSort then
      if !e.isSort then none
      else if matchLevel cfg.opts.universes p.sortLevel e.sortLevel then some args else none
    else if e.isApp then
      let (pFn, pArgs) := p.getAppArgs
      let (eFn, eArgs) := e.getAppArgs
      match matchE cfg fuel pFn eFn args with
      | none => none
      | some args1 =>
        let expl := p.isExplicit
        if expl then
          if pArgs.length ≠ eArgs.length then none
          else matchArgsExpl cfg fuel pArgs eArgs args1
        else
          match cfg.env.infer eFn with
          | none => none
          | some fnType => matchArgsLoop cfg fuel fnType pArgs eArgs args1
    else none
termination_by structural fuel _ _ _ => fuel

/-- The positional walk of the explicit branch of `pretty_fn::match`
(pp.cpp lines 636-642). -/
def matchArgsExpl (cfg : PPCfg) : Nat → List Expr → List Expr → List (Option Expr) →
    Option (List (Option Expr))
  | 0, _, _, _ => none
  | _+1, [], [], args => some args
  | fuel+1, pa :: pas, ea :: eas, args =>
    match matchE cfg fuel pa ea args with
    | none => none
    | some args' => matchArgsExpl cfg fuel pas eas args'
  | _+1, _, _, _ => none
termination_by structural fuel _ _ _ => fuel

/-- The implicit-aware argument walk of `pretty_fn::match` (pp.cpp lines
644-661): the inferred function type of the term's head is peeled one
dependent product per actual argument; pattern arguments are consumed only
against explicit binder positions, and the walk succeeds exactly when all
pattern arguments are consumed (`j == p_args.size()`).  Any inference
failure is the caught exception (`false`). -/
def matchArgsLoop (cfg : PPCfg) : Nat → Expr → List Expr → List Expr → List (Option Expr) →
    Option (List (Option Expr))
  | 0, _, _, _, _ => none
  | _+1, _, pArgs, [], args => if pArgs.isEmpty then some args else none
  | fuel+1, fnType, pArgs, ea :: eas, args =>
    match cfg.env.ensurePi fnType with
    | none => none
    | some piTy =>
      if piTy.bindingInfo.isExplicit then
        match pArgs with
        | [] => none
        | pa :: pas =>
          match matchE cfg fuel pa ea args with
          | none => none
          | some args' =>
            matchArgsLoop cfg fuel (piTy.bindingBody.instantiateE ea) pas eas args'
      else
        matchArgsLoop cfg fuel (piTy.bindingBody.instantiateE ea) pArgs eas args
termination_by structural fuel _ _ _ _ => fuel

end

/-- Lift all free variables by `d` (`lift_free_vars(e, d)`). -/
def liftE (e : Expr) (d : Nat) : Expr := Expr.liftFreeVars d e 0

/-- `mk_Prop()`. -/
def mkProp : Expr := Expr.sort Level.zero

/-- Modelled from the spec: the external universe-level printer
`::lean::pp(l, unicode, indent)` (`library/print` / `kernel/level.cpp`,
outside the source under review); only the fact that it is a pure
level-to-format function matters here. -/
def levelToStr : Level → String
  | .zero => "0"
  | .succ l => levelToStr l ++ "+1"
  | .max a b => "(max " ++ levelToStr a ++ " " ++ levelToStr b ++ ")"
  | .imax a b => "(imax " ++ levelToStr a ++ " " ++ levelToStr b ++ ")"
  | .param n => n.toStr
  | .mvar n => "?" ++ n.toStr
  | .placeholder => "_"

/-- `pretty_fn::pp_level` (pp.cpp lines 181-183). -/
def ppLevelFmt (l : Level) : Format := .text (levelToStr l)

/-- The ellipsis result produced by the depth/step guard of `pretty_fn::pp`
(pp.cpp lines 780-781). -/
def ellipsisResult (cfg : PPCfg) : Result :=
  Result.ofFmt (if cfg.opts.unicode then ellipsisNFmt else ellipsisFmt)

/-- `pretty_fn::pp_var` (pp.cpp lines 264-267). -/
def ppVar (e : Expr) : Result :=
  Result.ofFmt (Format.compose (.text "#") (.ofNat e.varIdx))

/-- `pretty_fn::pp_sort` (pp.cpp lines 269-277). -/
def ppSort (cfg : PPCfg) (e : Expr) : Result :=
  if cfg.env.impredicative && e = mkProp then Result.ofFmt (.text "Prop")
  else if cfg.opts.universes then
    Result.ofFmt (.group ((Format.text "Type.\x7b") + .nest 6 (ppLevelFmt e.sortLevel) + .text "\x7d"))
  else Result.ofFmt (.text "Type")

/-- `pretty_fn::is_aliased` (pp.cpp lines 279-290): an alias is suppressed
when the current namespaces shadow it. -/
def isAliased (cfg : PPCfg) (n : Name) : Option Name :=
  match cfg.env.aliasOf n with
  | some it =>
    if cfg.env.namespaces.any (fun ns => !ns.isAnonymous && cfg.env.findDecl (ns.nconcat it))
    then none else some it
  | none => none

/-- The namespace-shortening loop of `pretty_fn::pp_const` (pp.cpp lines
298-306): the first namespace whose prefix strips to a different, non-anonymous
name wins. -/
def nsShorten (nss : List Name) (n : Name) : Name :=
  match nss with
  | [] => n
  | ns :: rest =>
    if !ns.isAnonymous then
      let newN := n.replacePrefix ns .anonymous
      if newN ≠ n && !newN.isAnonymous then newN else nsShorten rest n
    else nsShorten rest n

/-- The universe-argument rendering loop of `pretty_fn::pp_const` (pp.cpp
lines 314-326). -/
def ppConstLvls (indent : Nat) : List Level → Format → Bool → Format
  | [], r, _ => r
  | l :: ls, r, first =>
    let lFmt := ppLevelFmt l
    let lFmt := if l.isMax || l.isImax then Format.paren lFmt else lFmt
    let r := if first then r + Format.nest indent lFmt
             else r + Format.nest indent (Format.compose .line lFmt)
    ppConstLvls indent ls r false

/-- `pretty_fn::pp_const` (pp.cpp lines 292-331). -/
def ppConst (cfg : PPCfg) (e : Expr) : Result :=
  let n := e.constName
  let n := if !cfg.opts.fullNames then
      match isAliased cfg n with
      | some it => it
      | none => nsShorten cfg.env.namespaces n
    else n
  let n := if !cfg.opts.privateNames then (cfg.env.hiddenToUser n).getD n else n
  if cfg.opts.universes && e.constLevels ≠ [] then
    let r := Format.compose (.ofName n) (.text ".\x7b")
    let r := ppConstLvls cfg.opts.indent e.constLevels r true
    Result.ofFmt (.group (r + Format.text "\x7d"))
  else Result.ofFmt (.ofName n)

/-- `pretty_fn::pp_meta` (pp.cpp lines 333-335). -/
def ppMeta (e : Expr) : Result :=
  Result.ofFmt (Format.compose (.text "?") (.ofName e.mlocalName))

/-- `pretty_fn::pp_local` (pp.cpp lines 337-339). -/
def ppLocal (e : Expr) : Result := Result.ofFmt (.ofName e.localPpName)

/-- `pretty_fn::pp_num` (pp.cpp lines 558-560). -/
def ppNum (n : Nat) : Result := Result.ofFmt (.ofNat n)

/-- The flattening loop of `pretty_fn::pp_let` (pp.cpp lines 522-538): peel
nested let macros; a binding whose value does not reoccur in the abstracted
remainder (`closed(b1)`) is dropped and peeling continues; otherwise the
binding is displayed under a capture-avoiding name and peeling continues in
the instantiated remainder.  `fuel` is the structural bound for the C++
`while (true)` loop. -/
def ppLetPeel : Nat → List (Name × Expr) → Expr → List (Name × Expr) × Expr
  | 0, decls, e => (decls, e)
  | fuel+1, decls, e =>
    if !e.isLet then (decls, e)
    else
      let n := e.getLetVarName
      let v := e.getLetValue
      let b := e.getLetBody
      let b1 := b.abstractE v
      if b1.closed then ppLetPeel fuel decls b1
      else
        let n' := pickUnusedName b1 n
        ppLetPeel fuel (decls ++ [(n', v)]) (b1.instantiateE (Expr.mkConstant n'))

/-- The binder-peeling loop of `pretty_fn::pp_lambda` (pp.cpp lines 418-423),
via `binding_body_fresh`. -/
def collectLam : Nat → Expr → List Expr → List Expr × Expr
  | 0, e, acc => (acc, e)
  | fuel+1, e, acc =>
    if e.isLambda then
      let (body, lc) := bindingBodyFresh e
      collectLam fuel body (acc ++ [lc])
    else (acc, e)

/-- The binder-peeling loop of `pretty_fn::pp_pi` (pp.cpp lines 446-450). -/
def collectPi : Nat → Expr → List Expr → List Expr × Expr
  | 0, e, acc => (acc, e)
  | fuel+1, e, acc =>
    if e.isPi && !isDefaultArrow e then
      let (body, lc) := bindingBodyFresh e
      collectPi fuel body (acc ++ [lc])
    else (acc, e)

set_option maxHeartbeats 4000000

mutual

/-- `pretty_fn::pp` (pp.cpp lines 779-810), the recursive render dispatcher.
State threading: `d` is `m_depth` (incremented for the body, restored on
return — the `flet` at line 782), `s` is `m_num_steps` on entry and the
second component of the value is `m_num_steps` on return.  `fuel` is the
structural recursion bound of the embedding; exhausted fuel returns the
same ellipsis result as the depth/step guard, and every theorem below is
stated at fuel patterns matching the source's call structure. -/
def pp (cfg : PPCfg) : Nat → Expr → Nat → Nat → Result × Nat
  | 0, _, _, s => (ellipsisResult cfg, s)
  | fuel+1, e, d, s =>
    if d > cfg.opts.maxDepth || s > cfg.opts.maxSteps then (ellipsisResult cfg, s)
    else
      let d1 := d + 1
      let s1 := s + 1
      match ppNotationExpr cfg fuel e d1 s1 with
      | (some r, s2) => (r, s2)
      | (none, s2) =>
        if e.isPlaceholderE then (Result.ofFmt placeholderFmt, s2)
        else if e.isShow then ppShow cfg fuel e d1 s2
        else if e.isHave then ppHave cfg fuel e d1 s2
        else if e.isLet then ppLet cfg fuel e d1 s2
        else if e.isTypedExpr then pp cfg fuel e.getTypedExprExpr d1 s2
        else if e.isLetValue then pp cfg fuel e.getLetValueExpr d1 s2
        else match cfg.env.toNum e with
        | some n => (ppNum n, s2)
        | none =>
          if !cfg.opts.metavarArgs && e.isMetaApp then (ppMeta e.getAppFn, s2)
          else match e with
          | .var _ => (ppVar e, s2)
          | .sort _ => (ppSort cfg e, s2)
          | .const _ _ => (ppConst cfg e, s2)
          | .meta _ _ => (ppMeta e, s2)
          | .localE _ _ _ _ => (ppLocal e, s2)
          | .app _ _ => ppApp cfg fuel e d1 s2
          | .lam _ _ _ _ => ppLambda cfg fuel e d1 s2
          | .pi _ _ _ _ => ppPi cfg fuel e d1 s2
          | _ => ppMacroE cfg fuel e d1 s2
termination_by structural fuel _ _ _ => fuel

/-- `pretty_fn::pp_child_core` (pp.cpp lines 245-252). -/
def ppChildCore (cfg : PPCfg) : Nat → Expr → Nat → Nat → Nat → Result × Nat
  | 0, _, _, _, s => (ellipsisResult cfg, s)
  | fuel+1, e, bp, d, s =>
    let (r, s') := pp cfg fuel e d s
    if r.rbp < bp then (Result.ofFmt (Format.paren r.fmt), s') else (r, s')
termination_by structural fuel _ _ _ _ => fuel

/-- `pretty_fn::pp_child` (pp.cpp lines 254-262): peel implicit-function
applications, elide coercions when disabled, else render and parenthesize. -/
def ppChild (cfg : PPCfg) : Nat → Expr → Nat → Nat → Nat → Result × Nat
  | 0, _, _, _, s => (ellipsisResult cfg, s)
  | fuel+1, e, bp, d, s =>
    if e.isApp && isImplicit cfg e.appFn then ppChild cfg fuel e.appFn bp d s
    else if e.isApp && !cfg.opts.coercion && (cfg.env.coercionOf e.getAppFn).isSome then
      ppCoercion cfg fuel e bp d s
    else ppChildCore cfg fuel e bp d s
termination_by structural fuel _ _ _ _ => fuel

/-- `pretty_fn::pp_coercion` (pp.cpp lines 224-243).  The source asserts that
the head is a registered coercion (`lean_assert(r)`); the impossible case
falls back to `pp_child_core`. -/
def ppCoercion (cfg : PPCfg) : Nat → Expr → Nat → Nat → Nat → Result × Nat
  | 0, _, _, _, s => (ellipsisResult cfg, s)
  | fuel+1, e, bp, d, s =>
    let (f, as) := e.getAppArgs
    match cfg.env.coercionOf f with
    | none => ppChildCore cfg fuel e bp d s
    | some (_, cut) =>
      if cut ≥ as.length then ppChildCore cfg fuel e bp d s
      else if cut = as.length - 1 then ppChild cfg fuel (as.getLast?.getD e) bp d s
      else
        let sz := as.length - cut
        let (r, s') := ppCoercionFn cfg fuel e sz d s
        if r.rbp < bp then (Result.ofFmt (Format.paren r.fmt), s') else (r, s')
termination_by structural fuel _ _ _ _ => fuel

/-- `pretty_fn::pp_coercion_fn` (pp.cpp lines 208-222). -/
def ppCoercionFn (cfg : PPCfg) : Nat → Expr → Nat → Nat → Nat → Result × Nat
  | 0, _, _, _, s => (ellipsisResult cfg, s)
  | fuel+1, e, sz, d, s =>
    if sz = 1 then ppChild cfg fuel e.appArg (maxBp - 1) d s
    else if e.isApp && isImplicit cfg e.appFn then ppCoercionFn cfg fuel e.appFn (sz-1) d s
    else
      let fn := e.appFn
      let (resFn, s1) := ppCoercionFn cfg fuel fn (sz-1) d s
      let fnFmt := resFn.fmt
      let fnFmt := if cfg.opts.implict && sz = 2 && hasImplicitArgs cfg fuel fn
                   then Format.compose explicitFmt fnFmt else fnFmt
      let (resArg, s2) := ppChild cfg fuel e.appArg maxBp d s1
      (Result.ofBp (maxBp - 1)
        (.group (Format.compose fnFmt (.nest cfg.opts.indent (Format.compose .line resArg.fmt)))), s2)
termination_by structural fuel _ _ _ _ => fuel

/-- `pretty_fn::pp_app` (pp.cpp lines 362-370). -/
def ppApp (cfg : PPCfg) : Nat → Expr → Nat → Nat → Result × Nat
  | 0, _, _, s => (ellipsisResult cfg, s)
  | fuel+1, e, d, s =>
    let fn := e.appFn
    let (resFn, s1) := ppChild cfg fuel fn (maxBp - 1) d s
    let fnFmt := resFn.fmt
    let fnFmt := if cfg.opts.implict && !fn.isApp && hasImplicitArgs cfg fuel fn
                 then Format.compose explicitFmt fnFmt else fnFmt
    let (resArg, s2) := ppChild cfg fuel e.appArg maxBp d s1
    (Result.ofBp (maxBp - 1)
      (.group (Format.compose fnFmt (.nest cfg.opts.indent (Format.compose .line resArg.fmt)))), s2)
termination_by structural fuel _ _ _ => fuel

/-- `pretty_fn::pp_binder_block` (pp.cpp lines 372-390). -/
def ppBinderBlock (cfg : PPCfg) : Nat → List Name → Expr → BinderInfo → Nat → Nat → Format × Nat
  | 0, _, _, _, _, s => (Format.text "", s)
  | fuel+1, names, type, bi, d, s =>
    let opening : Format :=
      if bi.implicit then .text "\x7b"
      else if bi.instImplicit then .text "["
      else if bi.strictImplicit && cfg.opts.unicode then .text "⦃"
      else if bi.strictImplicit && !cfg.opts.unicode then .text "\x7b\x7b"
      else .text "("
    let r := names.foldl (fun acc n => acc + Format.ofName n + Format.space) opening
    let (tr, s') := ppChild cfg fuel type 0 d s
    let r := r + Format.compose .colon (.nest cfg.opts.indent (Format.compose .line tr.fmt))
    let closing : Format :=
      if bi.implicit then .text "\x7d"
      else if bi.instImplicit then .text "]"
      else if bi.strictImplicit && cfg.opts.unicode then .text "⦄"
      else if bi.strictImplicit && !cfg.opts.unicode then .text "\x7d\x7d"
      else .text ")"
    (.group (r + closing), s')
termination_by structural fuel _ _ _ _ _ => fuel

/-- The grouping loop of `pretty_fn::pp_binders` (pp.cpp lines 400-411):
consecutive locals with identical type and binder info are grouped into one
block. -/
def ppBindersAux (cfg : PPCfg) : Nat → List Expr → List Name → Expr → BinderInfo → Format →
    Nat → Nat → Format × Nat
  | 0, _, _, _, _, _, _, s => (Format.text "", s)
  | fuel+1, [], names, type, bi, r, d, s =>
    let (blk, s') := ppBinderBlock cfg fuel names type bi d s
    (r + .group (Format.compose .line blk), s')
  | fuel+1, lc :: rest, names, type, bi, r, d, s =>
    if lc.mlocalType = type && lc.localInfo = bi then
      ppBindersAux cfg fuel rest (names ++ [lc.localPpName]) type bi r d s
    else
      let (blk, s') := ppBinderBlock cfg fuel names type bi d s
      ppBindersAux cfg fuel rest [lc.localPpName] lc.mlocalType lc.localInfo
        (r + .group (Format.compose .line blk)) d s'
termination_by structural fuel _ _ _ _ _ _ _ => fuel

/-- `pretty_fn::pp_binders` (pp.cpp lines 392-414); only ever called with a
non-empty local list. -/
def ppBinders (cfg : PPCfg) : Nat → List Expr → Nat → Nat → Format × Nat
  | 0, _, _, s => (Format.text "", s)
  | _+1, [], _, s => (Format.text "", s)
  | fuel+1, lc :: rest, d, s =>
    ppBindersAux cfg fuel rest [lc.localPpName] lc.mlocalType lc.localInfo (Format.text "") d s
termination_by structural fuel _ _ _ => fuel

/-- `pretty_fn::pp_lambda` (pp.cpp lines 416-428). -/
def ppLambda (cfg : PPCfg) : Nat → Expr → Nat → Nat → Result × Nat
  | 0, _, _, s => (ellipsisResult cfg, s)
  | fuel+1, e, d, s =>
    let (locals, b) := collectLam (fuel+1) e []
    let r := if cfg.opts.unicode then lambdaNFmt else lambdaFmt
    let (bs, s1) := ppBinders cfg fuel locals d s
    let (bodyRes, s2) := ppChild cfg fuel b 0 d s1
    (Result.ofBp 0
      (r + bs + Format.compose .comma (.nest cfg.opts.indent (Format.compose .line bodyRes.fmt))), s2)
termination_by structural fuel _ _ _ => fuel

/-- `pretty_fn::pp_pi` (pp.cpp lines 437-460). -/
def ppPi (cfg : PPCfg) : Nat → Expr → Nat → Nat → Result × Nat
  | 0, _, _, s => (ellipsisResult cfg, s)
  | fuel+1, e, d, s =>
    if isDefaultArrow e then
      let (lhs, s1) := ppChild cfg fuel e.bindingDomain getArrowPrec d s
      let (rhs, s2) := ppChild cfg fuel (liftE e.bindingBody 1) (getArrowPrec - 1) d s1
      let arr := if cfg.opts.unicode then arrowNFmt else arrowFmt
      (Result.ofBp (getArrowPrec - 1)
        (.group (lhs.fmt + Format.space + arr + Format.line + rhs.fmt)), s2)
    else
      let (locals, b) := collectPi (fuel+1) e []
      let r := if isProp cfg b then (if cfg.opts.unicode then forallNFmt else forallFmt)
               else (if cfg.opts.unicode then piNFmt else piFmt)
      let (bs, s1) := ppBinders cfg fuel locals d s
      let (bodyRes, s2) := ppChild cfg fuel b 0 d s1
      (Result.ofBp 0
        (r + bs + Format.compose .comma (.nest cfg.opts.indent (Format.compose .line bodyRes.fmt))), s2)
termination_by structural fuel _ _ _ => fuel

/-- `pretty_fn::pp_have` (pp.cpp lines 468-487). -/
def ppHave (cfg : PPCfg) : Nat → Expr → Nat → Nat → Result × Nat
  | 0, _, _, s => (ellipsisResult cfg, s)
  | fuel+1, e, d, s =>
    let proof := e.appArg
    let binding := e.appFn.getAnnotationArg
    let (body, lc) := bindingBodyFresh binding
    let n := lc.localPpName
    let (typeRes, s1) := ppChild cfg fuel lc.mlocalType 0 d s
    let (proofRes, s2) := ppChild cfg fuel proof 0 d s1
    let (bodyRes, s3) := ppChild cfg fuel body 0 d s2
    let r := haveFmt + Format.space + Format.ofName n + Format.space
    let r := if binding.bindingInfo.contextual then r + Format.compose visibleFmt Format.space else r
    let r := r + Format.colon +
      Format.nest cfg.opts.indent (Format.line + typeRes.fmt + Format.comma + Format.space + fromFmt)
    let r := Format.group r
    let r := r + Format.nest cfg.opts.indent (Format.line + proofRes.fmt + Format.comma)
    let r := Format.group r
    let r := r + Format.line + bodyRes.fmt
    (Result.ofBp 0 r, s3)
termination_by structural fuel _ _ _ => fuel

/-- `pretty_fn::pp_show` (pp.cpp lines 489-500). -/
def ppShow (cfg : PPCfg) : Nat → Expr → Nat → Nat → Result × Nat
  | 0, _, _, s => (ellipsisResult cfg, s)
  | fuel+1, e, d, s =>
    let inner := e.getAnnotationArg
    let proof := inner.appArg
    let type := inner.appFn.bindingDomain
    let (typeRes, s1) := ppChild cfg fuel type 0 d s
    let (proofRes, s2) := ppChild cfg fuel proof 0 d s1
    let r := showFmt + Format.space + Format.nest 5 typeRes.fmt + Format.comma +
      Format.space + fromFmt
    let r := Format.group r
    let r := r + Format.nest cfg.opts.indent (Format.compose .line proofRes.fmt)
    (Result.ofBp 0 (.group r), s2)
termination_by structural fuel _ _ _ => fuel

/-- `pretty_fn::pp_explicit` (pp.cpp lines 502-505). -/
def ppExplicit (cfg : PPCfg) : Nat → Expr → Nat → Nat → Result × Nat
  | 0, _, _, s => (ellipsisResult cfg, s)
  | fuel+1, e, d, s =>
    let (resArg, s') := ppChild cfg fuel e.getExplicitArg maxBp d s
    (Result.ofBp maxBp (Format.compose explicitFmt resArg.fmt), s')
termination_by structural fuel _ _ _ => fuel

/-- The argument loop of the generic macro printer (pp.cpp lines 514-515). -/
def ppMacroArgs (cfg : PPCfg) : Nat → List Expr → Format → Nat → Nat → Format × Nat
  | 0, _, r, _, s => (r, s)
  | _+1, [], r, _, s => (r, s)
  | fuel+1, a :: rest, r, d, s =>
    let (ar, s') := ppChild cfg fuel a maxBp d s
    ppMacroArgs cfg fuel rest (r + Format.nest cfg.opts.indent (Format.compose .line ar.fmt)) d s'
termination_by structural fuel _ _ _ _ => fuel

/-- `pretty_fn::pp_macro` (pp.cpp lines 507-519). -/
def ppMacroE (cfg : PPCfg) : Nat → Expr → Nat → Nat → Result × Nat
  | 0, _, _, s => (ellipsisResult cfg, s)
  | fuel+1, e, d, s =>
    if e.isExplicit then ppExplicit cfg fuel e d s
    else
      let r := Format.compose (.text "[") (.ofName e.macroDefName)
      let (r, s') := ppMacroArgs cfg fuel e.macroArgs r d s
      (Result.ofFmt (.group (r + Format.text "]")), s')
termination_by structural fuel _ _ _ => fuel

/-- The binding-rendering loop of `pretty_fn::pp_let` (pp.cpp lines 543-552). -/
def ppLetDecls (cfg : PPCfg) : Nat → List (Name × Expr) → Format → Bool → Nat → Nat → Format × Nat
  | 0, _, r, _, _, s => (r, s)
  | _+1, [], r, _, _, s => (r, s)
  | fuel+1, (n, v) :: rest, r, first, d, s =>
    let beg := if first then Format.space else Format.line
    let sep := if rest.isEmpty then Format.text "" else Format.comma
    let (vRes, s') := ppChild cfg fuel v 0 d s
    let entry := Format.ofName n + Format.space + assignFmt +
      Format.nest cfg.opts.indent (Format.line + vRes.fmt + sep)
    ppLetDecls cfg fuel rest (r + Format.nest (3+1) (beg + Format.group entry)) false d s'
termination_by structural fuel _ _ _ _ _ => fuel

/-- `pretty_fn::pp_let` (pp.cpp lines 521-556): flatten with `ppLetPeel`,
then render the displayed bindings and the final body. -/
def ppLet (cfg : PPCfg) : Nat → Expr → Nat → Nat → Result × Nat
  | 0, _, _, s => (ellipsisResult cfg, s)
  | fuel+1, e, d, s =>
    let (decls, e') := ppLetPeel (fuel+1) [] e
    if decls.isEmpty then pp cfg fuel e' d s
    else
      let (r, s1) := ppLetDecls cfg fuel decls letFmt true d s
      let (bRes, s2) := ppChild cfg fuel e' 0 d s1
      (Result.ofBp 0 (r + Format.line + inFmt + Format.space + Format.nest (2+1) bRes.fmt), s2)
termination_by structural fuel _ _ _ => fuel

/-- `pretty_fn::pp_notation_child` (pp.cpp lines 679-692). -/
def ppNotationChild (cfg : PPCfg) : Nat → Expr → Nat → Nat → Nat → Nat → Result × Nat
  | 0, _, _, _, _, s => (ellipsisResult cfg, s)
  | fuel+1, e, lbp, rbp, d, s =>
    if e.isApp && isImplicit cfg e.appFn then ppNotationChild cfg fuel e.appFn lbp rbp d s
    else if e.isApp && !cfg.opts.coercion && (cfg.env.coercionOf e.getAppFn).isSome then
      ppCoercion cfg fuel e rbp d s
    else
      let (r, s') := pp cfg fuel e d s
      if r.rbp < lbp || r.lbp ≤ rbp then (Result.ofFmt (Format.paren r.fmt), s') else (r, s')
termination_by structural fuel _ _ _ _ _ => fuel

/-- The reverse transition walk of `pretty_fn::pp_notation(entry)` (pp.cpp
lines 702-747), over the reversed transition list.  The accumulator mirrors
the C++ loop state `(fmt, last, last_rbp, token_lbp)` and the match
environment is consumed from the back; the value carries the final
`(fmt, last_rbp, token_lbp, remaining args)` or `none` for a failed
attempt. -/
def ppNotationTs (cfg : PPCfg) : Nat → List Transition → List (Option Expr) → Format → Bool →
    Nat → Nat → Nat → Nat → Option (Format × Nat × Nat × List (Option Expr)) × Nat
  | 0, _, _, _, _, _, _, _, s => (none, s)
  | _+1, [], args, fmt, _, lastRbp, tokenLbp, _, s => (some (fmt, lastRbp, tokenLbp, args), s)
  | fuel+1, t :: ts, args, fmt, last, lastRbp, tokenLbp, d, s =>
    let tk := t.token
    match t.action with
    | .Skip =>
      let curr := Format.ofName tk
      let lastRbp' := if last then getSomePrecedence cfg tk else lastRbp
      let tokenLbp' := getSomePrecedence cfg tk
      let fmt' := if last then curr else curr + Format.space + fmt
      ppNotationTs cfg fuel ts args fmt' false lastRbp' tokenLbp' d s
    | .Expr rbp =>
      match args.getLast? with
      | none => (none, s)
      | some none => (none, s)
      | some (some e1) =>
        let args' := args.dropLast
        let (er, s') := ppNotationChild cfg fuel e1 tokenLbp rbp d s
        let curr := Format.ofName tk + Format.space + er.fmt
        let lastRbp' := if last then rbp else lastRbp
        let tokenLbp' := getSomePrecedence cfg tk
        let fmt' := if last then curr else curr + Format.space + fmt
        ppNotationTs cfg fuel ts args' fmt' false lastRbp' tokenLbp' d s'
    | _ => (none, s)
termination_by structural fuel _ _ _ _ _ _ _ _ => fuel

/-- `pretty_fn::pp_notation(entry)` (pp.cpp lines 694-760): numeral entries
short-circuit; otherwise the transitions are walked in reverse, and a led
(non-nud) entry consumes one final argument at the front. -/
def ppNotationEntry (cfg : PPCfg) : Nat → NotationEntry → List (Option Expr) → Nat → Nat →
    Option Result × Nat
  | 0, _, _, _, s => (none, s)
  | fuel+1, entry, args, d, s =>
    match entry.numeral with
    | some n => (some (Result.ofFmt (.ofNat n)), s)
    | none =>
      match ppNotationTs cfg fuel entry.transitions.reverse args (Format.text "") true
          (maxBp - 1) 0 d s with
      | (none, s') => (none, s')
      | (some (fmt, lastRbp, tokenLbp, args'), s') =>
        let firstLbp := tokenLbp
        if !entry.nud then
          match args' with
          | [some e1] =>
            let (eRes, s'') := ppNotationChild cfg fuel e1 tokenLbp 0 d s'
            (some (Result.mk3 firstLbp lastRbp (eRes.fmt + Format.space + fmt)), s'')
          | _ => (none, s')
        else (some (Result.mk3 firstLbp lastRbp fmt), s')
termination_by structural fuel _ _ _ _ => fuel

/-- The candidate loop of `pretty_fn::pp_notation(expr)` (pp.cpp lines
765-775): try each declared entry in order; non-ASCII-safe entries are
skipped when unicode is disabled; a matching entry that fails to render
leaves its consumed steps behind and the search continues. -/
def ppNotationList (cfg : PPCfg) : Nat → List NotationEntry → Expr → Nat → Nat →
    Option Result × Nat
  | 0, _, _, _, s => (none, s)
  | _+1, [], _, _, s => (none, s)
  | fuel+1, entry :: rest, e, d, s =>
    if !cfg.opts.unicode && !entry.safeAscii then ppNotationList cfg fuel rest e d s
    else
      let numParams := getNumParameters entry
      let args : List (Option Expr) := List.replicate numParams none
      match matchE cfg fuel entry.pat e args with
      | some args' =>
        match ppNotationEntry cfg fuel entry args' d s with
        | (some r, s') => (some r, s')
        | (none, s') => ppNotationList cfg fuel rest e d s'
      | none => ppNotationList cfg fuel rest e d s
termination_by structural fuel _ _ _ _ => fuel

/-- `pretty_fn::pp_notation(expr)` (pp.cpp lines 762-777): no attempt at all
when the option is disabled or the term is a bound variable. -/
def ppNotationExpr (cfg : PPCfg) : Nat → Expr → Nat → Nat → Option Result × Nat
  | 0, _, _, s => (none, s)
  | fuel+1, e, d, s =>
    if !cfg.opts.notationOpt || e.isVar then (none, s)
    else ppNotationList cfg fuel (cfg.env.entriesFor e) e d s
termination_by structural fuel _ _ _ => fuel

end

/-- The `pretty_fn` object: read-only configuration plus the mutable members
(`m_purify_*` tables, `m_next_meta_idx`, `m_depth`, `m_num_steps`).  One such
object is shared by all print calls made through one formatter
(`mk_pretty_formatter_factory` captures a single `shared_ptr<pretty_fn>`). -/
structure PrettyFn where
  cfg : PPCfg
  purify : PurifySt := {}
  depth : Nat := 0
  numSteps : Nat := 0

/-- The constructor `pretty_fn::pretty_fn` (pp.cpp lines 812-817): options
snapshot, meta prefix `"M"`, meta counter 1, empty tables (the table fields
are default-constructed members). -/
def mkPrettyFn (cfg : PPCfg) : PrettyFn := { cfg := cfg }

/-- `pretty_fn::operator()` (pp.cpp lines 819-825): reset the depth and step
counters, optionally beta-reduce, purify, then render with `pp_child` at
binding power 0.  The purification tables are whatever the member state
holds — they are not reset here.  `fuel` is the embedding's recursion bound
for the render cluster. -/
def applyPrettyFn (fuel : Nat) (fn : PrettyFn) (e : Expr) : Format × PrettyFn :=
  let fn0 : PrettyFn := { fn with depth := 0, numSteps := 0 }
  let e1 := if fn0.cfg.opts.beta then fn0.cfg.env.betaReduce e else e
  let (e2, pst) := purifyExpr fn0.cfg.opts.universes fn0.purify e1
  let (r, s') := ppChild fn0.cfg fuel e2 0 fn0.depth fn0.numSteps
  (r.fmt, { fn0 with purify := pst, numSteps := s' })

/-- `pretty_fn::set_options` (pp.cpp lines 175-179); the `is_eqp` pointer
identity test is modelled as structural equality (behaviourally equivalent:
`set_options_core` recomputes every field from the new option set). -/
def setOptions (fn : PrettyFn) (o : PPOpts) : PrettyFn :=
  if o = fn.cfg.opts then fn else { fn with cfg := { fn.cfg with opts := o } }

/-- One call through the formatter produced by `mk_pretty_formatter_factory`
(pp.cpp lines 827-835): the captured `pretty_fn` has its options updated and
is then applied; the updated object is the state the next call through the
same formatter starts from. -/
def formatterCall (fuel : Nat) (fn : PrettyFn) (o : PPOpts) (e : Expr) : Format × PrettyFn :=
  applyPrettyFn fuel (setOptions fn o) e

/-- Unsupported-action classification of C8: the action kinds whose
appearance aborts a whole rendering attempt (pp.cpp lines 730-738). -/
def badAction : NAction → Bool
  | .Exprs | .Binder | .Binders | .ScopedExpr | .Ext | .LuaExt => true
  | _ => false

/-- The extension order on purification states: every established table entry,
used name and the counter survive (nothing is ever removed or reset). -/
def PExt (st st' : PurifySt) : Prop :=
  (∀ k v, alookup st.metaTable k = some v → alookup st'.metaTable k = some v) ∧
  (∀ k v, alookup st.localTable k = some v → alookup st'.localTable k = some v) ∧
  (∀ n, n ∈ st.usedLocals → n ∈ st'.usedLocals) ∧
  st.nextMetaIdx ≤ st'.nextMetaIdx ∧
  st.metaPfx = st'.metaPfx

/-- The purifier's invariant (for C6): metavariable display names are
`prefix<i>` with `i` below the counter and pairwise distinct; local display
names are pairwise distinct and recorded in the used set. -/
def PurifyInv (st : PurifySt) : Prop :=
  (st.metaTable.map Prod.snd).Nodup ∧
  (∀ p ∈ st.metaTable, ∃ i < st.nextMetaIdx, p.2 = st.metaPfx.appendAfter i) ∧
  (st.localTable.map Prod.snd).Nodup ∧
  (∀ p ∈ st.localTable, p.2 ∈ st.usedLocals)

/-- Re-purification stability (for C5): every local constant the purifier
would visit already has its display name recorded in the tables.  (The
metavariable case is `False`: a purified metavariable is *not* stable, its
identity was replaced by the display name.) -/
def Purified (st : PurifySt) : Expr → Prop
  | .var _ => True
  | .sort _ => True
  | .const _ _ => True
  | .meta _ _ => False
  | .localE idn ppn _ _ => alookup st.localTable idn = some ppn
  | .app f a => Purified st f ∧ Purified st a
  | .lam _ d b _ => Purified st d ∧ Purified st b
  | .pi _ d b _ => Purified st d ∧ Purified st b
  | .annot _ a => Purified st a
  | .letM _ v b => Purified st v ∧ Purified st b
  | .letVal v => Purified st v
  | .typedE ty e => Purified st ty ∧ Purified st e
  | .explicitE e => Purified st e
  | .placeholderE => True

/-- Synthetically nested application `f (f … (f x)…)` of the stated depth
(the C1 depth-bound scenario). -/
def nestApp : Nat → Expr
  | 0 => .const "x" []
  | n+1 => .app (.const "f" []) (nestApp n)

/-- An empty-environment configuration with the given depth/step limits
(remaining options at their defaults). -/
def cfgDS (maxD maxS : Nat) : PPCfg :=
  { env := {}, opts := { maxDepth := maxD, maxSteps := maxS } }

/-- The default empty-environment configuration. -/
def cfg0 : PPCfg := { env := {}, opts := {} }

/-- Like `cfg0` but with the use-notation option disabled. -/
def cfgNoNotation : PPCfg := { env := {}, opts := { notationOpt := false } }

/-- A single-token prefix notation entry whose pattern matches anything
(fixture for C7). -/
def entryBang : NotationEntry :=
  { transitions := [⟨"!!", .Skip⟩], pat := .placeholderE, nud := true,
    safeAscii := true, numeral := none }

/-- A configuration declaring `entryBang` for every head (fixture for C7). -/
def cfgBang : PPCfg := { env := { entriesFor := fun _ => [entryBang] }, opts := {} }

/-- An entry whose only transition's token has no precedence in the (empty)
token table (fixture for C8's counterexample). -/
def entryMissTk : NotationEntry :=
  { transitions := [⟨"tk", .Skip⟩], pat := .placeholderE, nud := true,
    safeAscii := true, numeral := none }

/-- An entry containing an unsupported `Binder` action (fixture for C8's
witness). -/
def entryBinder : NotationEntry :=
  { transitions := [⟨"fold", .Binder⟩], pat := .placeholderE, nud := true,
    safeAscii := true, numeral := none }

/-- A coercion environment registering head `co` with the given
arity-cutoff (fixture for C9). -/
def cfgCo (cut : Nat) : PPCfg :=
  { env := { coercionOf := fun f => if f = Expr.const "co" [] then some ("co", cut) else none },
    opts := { coercion := false } }

/-- Like `cfgCo` but with coercion display enabled. -/
def cfgCoShow (cut : Nat) : PPCfg :=
  { env := { coercionOf := fun f => if f = Expr.const "co" [] then some ("co", cut) else none },
    opts := { coercion := true } }

/-- The coerced application `co f a` (fixture for C9). -/
def coApp : Expr := .app (.app (.const "co" []) (.const "f" [])) (.const "a" [])

/-- The let-chain of C2: `let x := v1 in let y := v2 in let z := v3 in
g v1 v3`, in the source's substituted-body encoding — `v1` reoccurs after
abstraction, `v2` never does, `v3` does. -/
def chainLet : Expr :=
  .letM "x" (.const "v1" [])
    (.letM "y" (.const "v2" [])
      (.letM "z" (.const "v3" [])
        (.app (.app (.const "g" []) (.const "v1" [])) (.const "v3" []))))

/-- A term with one metavariable and one local whose suggested display name
is the first metavariable name `M1` (fixture for C6's counterexample). -/
def clashTerm : Expr :=
  .app (.meta "m" (.sort .zero)) (.localE "l" "M1" (.sort .zero) {})

theorem chVal_digitChar (d : Nat) (h : d < 10) : chVal (digitChar d) = d := by
  interval_cases d <;> decide

theorem lcVal_append (xs ys : List Char) :
    lcVal (xs ++ ys) = ys.foldl (fun a c => 10 * a + chVal c) (lcVal xs) := by
  simp [lcVal, List.foldl_append]

theorem lcVal_natDigits : ∀ fuel n, n < fuel → lcVal (natDigits fuel n) = n := by
  intro fuel
  induction fuel with
  | zero => intro n h; omega
  | succ f ih =>
    intro n h
    by_cases h10 : n < 10
    · simp [natDigits, h10, lcVal, chVal_digitChar n h10]
    · have hdiv : n / 10 < f := by omega
      simp only [natDigits, if_neg h10, lcVal_append, ih (n / 10) hdiv]
      have : chVal (digitChar (n % 10)) = n % 10 := chVal_digitChar _ (Nat.mod_lt _ (by omega))
      simp [List.foldl, this]
      omega

theorem natToStr_injective : Function.Injective natToStr := by
  intro a b h
  have ha := lcVal_natDigits (a+1) a (by omega)
  have hb := lcVal_natDigits (b+1) b (by omega)
  have : natDigits (a+1) a = natDigits (b+1) b := congrArg String.data h
  rw [this] at ha
  omega

theorem Name.appendAfter_right_injective (b : Name) :
    Function.Injective (appendAfter b) := by
  intro i j h
  cases b with
  | anonymous => simpa [appendAfter] using h
  | num pre n => simpa [appendAfter] using h
  | str pre s =>
    simp only [appendAfter, str.injEq] at h
    have hs : s.data ++ (natToStr i).data = s.data ++ (natToStr j).data := by
      have := congrArg String.data h.2
      simpa [String.append] using this
    exact natToStr_injective (String.ext (List.append_cancel_left hs))

/-- C3. The notation matcher's constant case never consults the term's
universe levels: line 614 of pp.cpp reads `e_ls` from the pattern `p` instead
of from `e` (`levels e_ls = const_levels(p);`), so the elementwise walk
compares the pattern's levels with themselves, the "e must have at least as
many arguments as p" check is dead code contradicting its own comment, and
a pattern constant matches a term constant with *any* levels.  Here: the
relaxed level equality does not relate `succ 0` and `0` (so the claim demands
a failed match), yet the match succeeds. -/
theorem C3_match_ignores_term_levels :
    matchLevel false (Level.succ .zero) .zero = false ∧
    matchE cfg0 5 (.const "c" [Level.succ .zero]) (.const "c" [.zero]) [] = some [] := by
  constructor
  · decide
  · decide

/-- C8, counterexample. A skip-token precedence lookup miss does not abort
the notation attempt: with an empty token table (the lookup on `"tk"`
misses), rendering `entryMissTk` still returns a result (`get_some_precedence`
defaults the precedence to 0, pp.cpp lines 668-677). -/
theorem C8_counterexample_prec_miss :
    cfg0.env.tokenPrec "tk" = none ∧
    (ppNotationEntry cfg0 4 entryMissTk [] 0 0).1 =
      some (Result.mk3 0 0 (.text "tk")) := by
  constructor
  · decide
  · decide

/-- Any transition list containing an unsupported action renders to `none`,
whatever the loop state (helper for C8). -/
theorem ppNotationTs_bad_action (cfg : PPCfg) :
    ∀ fuel ts args fmt last lastRbp tokenLbp d s,
    (∃ t ∈ ts, badAction t.action = true) →
    (ppNotationTs cfg fuel ts args fmt last lastRbp tokenLbp d s).1 = none := by
  intro fuel
  induction fuel with
  | zero => intro ts args fmt last lastRbp tokenLbp d s _; rfl
  | succ f ih =>
    intro ts args fmt last lastRbp tokenLbp d s h
    match ts with
    | [] => exact absurd h (by simp)
    | t :: ts' =>
      rcases h with ⟨u, hu, hbad⟩
      rcases List.mem_cons.mp hu with rfl | hu'
      · cases hab : u.action <;> simp_all [ppNotationTs, badAction]
      · cases hab : t.action with
        | Skip => simpa [ppNotationTs, hab] using ih ts' args _ false _ _ d s ⟨u, hu', hbad⟩
        | Expr rbp =>
          simp only [ppNotationTs, hab]
          match hlast : args.getLast? with
          | none => rfl
          | some none => rfl
          | some (some e1) =>
            simpa [hlast] using ih ts' args.dropLast _ false _ _ d _ ⟨u, hu', hbad⟩
        | Exprs => simp [ppNotationTs, hab]
        | Binder => simp [ppNotationTs, hab]
        | Binders => simp [ppNotationTs, hab]
        | ScopedExpr => simp [ppNotationTs, hab]
        | Ext => simp [ppNotationTs, hab]
        | LuaExt => simp [ppNotationTs, hab]

/-- C8, amended. A notation entry (not a numeral shortcut) containing an
exprs/binder/binders/scoped-expr/extension action never renders: the whole
attempt returns no result.  (A skip-token precedence miss does *not* abort
the attempt — see the counterexample — it defaults the precedence to 0.) -/
theorem C8_unsupported_action_fails (cfg : PPCfg) (fuel : Nat) (entry : NotationEntry)
    (args : List (Option Expr)) (d s : Nat)
    (hnum : entry.isNumeral = false)
    (hbad : ∃ t ∈ entry.transitions, badAction t.action = true) :
    (ppNotationEntry cfg fuel entry args d s).1 = none := by
  match fuel with
  | 0 => rfl
  | f+1 =>
    have hnone : entry.numeral = none := by
      simpa [NotationEntry.isNumeral, Option.isSome_iff_exists] using hnum
    have hts : (ppNotationTs cfg f entry.transitions.reverse args (Format.text "") true
        (maxBp - 1) 0 d s).1 = none :=
      ppNotationTs_bad_action cfg f _ args _ true _ 0 d s
        (by rcases hbad with ⟨t, ht, hb⟩; exact ⟨t, List.mem_reverse.mpr ht, hb⟩)
    simp only [ppNotationEntry, hnone]
    rcases hres : ppNotationTs cfg f entry.transitions.reverse args (Format.text "") true
        (maxBp - 1) 0 d s with ⟨o, s'⟩
    rw [hres] at hts
    simp only at hts
    subst hts
    rfl

/-- C8, witness: a concrete entry with a `Binder` action fails to render. -/
theorem C8_witness :
    entryBinder.isNumeral = false ∧
    (∃ t ∈ entryBinder.transitions, badAction t.action = true) ∧
    (ppNotationEntry cfg0 3 entryBinder [] 0 0).1 = none :=
  ⟨by decide, by decide,
   C8_unsupported_action_fails cfg0 3 entryBinder [] 0 0 (by decide) (by decide)⟩

/-- C2, counterexample. On the chain `let x := v1 in let y := v2 in
let z := v3 in g v1 v3` — where the second binding's value `v2` never
reoccurs after abstraction — the flattening loop does *not* stop at the
second binding: it displays two bindings (`x` and `z`), not exactly one. -/
theorem C2_counterexample_not_one_binding :
    ¬ ((ppLetPeel 10 [] chainLet).1.length = 1) := by decide

/-- C2, amended. When a peeled binding's value does not reoccur in the
abstracted remainder, the binding is dropped from the displayed declarations
and flattening *continues* into the remainder; the loop stops only when the
remainder is no longer a let.  On the concrete chain: bindings `x` and `z`
are displayed, the never-reoccurring `y` binding is silently dropped, and
the final body is the innermost body with the kept values replaced by their
display constants. -/
theorem C2_drop_and_continue :
    ppLetPeel 10 [] chainLet =
      ([(("x" : Name), Expr.const "v1" []), (("z" : Name), Expr.const "v3" [])],
        .app (.app (.const "g" []) (.const "x" [])) (.const "z" [])) := by decide

/-- Disabled use-notation option (or any fuel exhaustion) yields no notation
attempt; and a bound variable never starts one (helper shared by C7/C10). -/
theorem ppNotationExpr_none (cfg : PPCfg) (fuel : Nat) (e : Expr) (d s : Nat)
    (h : cfg.opts.notationOpt = false ∨ e.isVar = true) :
    ppNotationExpr cfg fuel e d s = (none, s) := by
  match fuel with
  | 0 => rfl
  | f+1 =>
    rcases h with h | h
    · simp [ppNotationExpr, h]
    · simp [ppNotationExpr, h]

/-- C7. Notation takes priority over generic syntax: below the depth/step
limits, the dispatcher's first act is the notation attempt, and a successful
attempt's result is returned immediately; and with the use-notation option
disabled the attempt always yields no result (and consumes nothing), so
dispatch falls through to the generic per-construct renderers. -/
theorem C7_priority_and_disable :
    (∀ cfg fuel e d s r s2,
      ¬(d > cfg.opts.maxDepth ∨ s > cfg.opts.maxSteps) →
      ppNotationExpr cfg fuel e (d+1) (s+1) = (some r, s2) →
      pp cfg (fuel+1) e d s = (r, s2)) ∧
    (∀ cfg fuel e d s, cfg.opts.notationOpt = false →
      ppNotationExpr cfg fuel e d s = (none, s)) := by
  constructor
  · intro cfg fuel e d s r s2 h hn
    push_neg at h
    have hb : (decide (d > cfg.opts.maxDepth) || decide (s > cfg.opts.maxSteps)) = false := by
      simp [Nat.not_lt.mpr h.1, Nat.not_lt.mpr h.2]
    simp only [pp, hb, Bool.false_eq_true, if_false, hn]
  · intro cfg fuel e d s h
    exact ppNotationExpr_none cfg fuel e d s (Or.inl h)

/-- C7, witness: a term matching the `!!` entry renders through the notation
(result returned unchanged with the attempt's step count), and the same
attempt under a disabled use-notation option yields no result. -/
theorem C7_witness :
    pp cfgBang 6 (.const "c" []) 0 0 = (Result.mk3 0 0 (.text "!!"), 1) ∧
    ppNotationExpr cfgNoNotation 5 (.const "c" []) 0 0 = (none, 0) :=
  ⟨C7_priority_and_disable.1 cfgBang 5 (.const "c" []) 0 0 (Result.mk3 0 0 (.text "!!")) 1
      (by decide) (by decide),
   C7_priority_and_disable.2 cfgNoNotation 5 (.const "c" []) 0 0 rfl⟩

/-- C10. A bound variable never enters notation matching — for every fuel,
environment (whatever entries it declares) and option set, the attempt
returns no result — and, below the limits and outside the numeral
recognizer, a bound variable renders generically as `#` followed by its
de Bruijn index. -/
theorem C10_var_generic :
    (∀ cfg fuel i d s, ppNotationExpr cfg fuel (.var i) d s = (none, s)) ∧
    (∀ cfg fuel i d s,
      ¬(d > cfg.opts.maxDepth ∨ s > cfg.opts.maxSteps) →
      cfg.env.toNum (.var i) = none →
      pp cfg (fuel+1) (.var i) d s = (ppVar (.var i), s + 1)) ∧
    (∀ i, ppVar (.var i) = Result.ofFmt (.compose (.text "#") (.ofNat i))) := by
  refine ⟨?_, ?_, fun i => rfl⟩
  · intro cfg fuel i d s
    exact ppNotationExpr_none cfg fuel (.var i) d s (Or.inr rfl)
  · intro cfg fuel i d s h htn
    push_neg at h
    have hb : (decide (d > cfg.opts.maxDepth) || decide (s > cfg.opts.maxSteps)) = false := by
      simp [Nat.not_lt.mpr h.1, Nat.not_lt.mpr h.2]
    simp only [pp, hb, Bool.false_eq_true, if_false,
      ppNotationExpr_none cfg fuel (.var i) (d+1) (s+1) (Or.inr rfl)]
    simp [Expr.isPlaceholderE, Expr.isShow, Expr.isHave, Expr.isLet, Expr.isTypedExpr,
      Expr.isLetValue, Expr.isAnnot, Expr.isApp, htn, Expr.isMetaApp, Expr.getAppFn,
      Expr.isMetavar]

/-- C10, witness: even with `entryBang` declared for every head, a bound
variable renders as `#3`. -/
theorem C10_witness :
    ppNotationExpr cfgBang 5 (.var 3) 0 0 = (none, 0) ∧
    pp cfgBang 5 (.var 3) 0 0 = (ppVar (.var 3), 1) :=
  ⟨C10_var_generic.1 cfgBang 5 3 0 0,
   C10_var_generic.2.1 cfgBang 4 3 0 0 (by decide) (by decide)⟩

theorem getAppArgs_fst (e : Expr) : (e.getAppArgs).1 = e.getAppFn := by
  induction e with
  | app f a ihf _ => simp [Expr.getAppArgs, Expr.getAppFn, ihf]
  | _ => rfl

/-- C9, counterexample. With the coercion head `co` registered with
arity-cutoff *equal* to the full argument count (2), hiding coercions does
*not* render `co f a` like its final argument alone: the `>=` branch of
`pp_coercion` (pp.cpp line 229) renders the full application. -/
theorem C9_counterexample_full_cutoff :
    (cfgCo 2).env.coercionOf (Expr.const "co" []) = some (("co" : Name), 2) ∧
    coApp.getAppArgs.2.length = 2 ∧
    (ppChild (cfgCo 2) 20 coApp 0 0 0).1 ≠ (ppChild (cfgCo 2) 20 (.const "a" []) 0 0 0).1 := by
  refine ⟨by decide, by decide, by decide⟩

/-- C9, amended. The elision-to-final-argument branch fires when the
arity-cutoff equals the full argument count *minus one* (pp.cpp line 231):
then rendering with coercion display disabled is literally rendering the
final argument alone at the same binding power; and with coercion display
enabled `pp_child` always falls through to the ordinary
render-and-parenthesize path (the full application). -/
theorem C9_cutoff_elision (cfg : PPCfg) :
    (∀ fuel e bp d s c,
      e.isApp = true → isImplicit cfg e.appFn = false → cfg.opts.coercion = false →
      cfg.env.coercionOf e.getAppFn = some (c, e.getAppArgs.2.length - 1) →
      e.getAppArgs.2 ≠ [] →
      ppChild cfg (fuel+2) e bp d s = ppChild cfg fuel (e.getAppArgs.2.getLast?.getD e) bp d s) ∧
    (∀ fuel e bp d s,
      isImplicit cfg e.appFn = false → cfg.opts.coercion = true →
      ppChild cfg (fuel+1) e bp d s = ppChildCore cfg fuel e bp d s) := by
  constructor
  · intro fuel e bp d s c happ himp hco hsome hne
    have hfst := getAppArgs_fst e
    rcases hga : e.getAppArgs with ⟨f, as⟩
    rw [hga] at hfst
    simp only [hga] at hsome hne
    have hlen : as.length ≠ 0 := by simpa using hne
    show ppChild cfg ((fuel+1)+1) e bp d s = _
    simp only [ppChild, happ, himp, hco, Bool.and_true, Bool.and_false, Bool.not_false,
      Bool.true_and, Bool.false_and, if_false, hfst, hsome, Option.isSome_some, if_true]
    simp only [ppCoercion, hga, hfst, hsome]
    have h1 : ¬ (as.length - 1 ≥ as.length) := by omega
    have h2 : (as.length - 1 = as.length - 1) := rfl
    simp [h1, hga]
  · intro fuel e bp d s himp hco
    cases happ : e.isApp with
    | false => simp [ppChild, happ]
    | true => simp [ppChild, happ, himp, hco]

/-- C9, witness: with cutoff 1 (= count − 1) the hidden-coercion rendering of
`co f a` is the rendering of `a` alone; with display enabled it is the
ordinary full-application path. -/
theorem C9_witness :
    ppChild (cfgCo 1) 7 coApp 0 0 0 = ppChild (cfgCo 1) 5 (.const "a" []) 0 0 0 ∧
    ppChild (cfgCoShow 1) 6 coApp 0 0 0 = ppChildCore (cfgCoShow 1) 5 coApp 0 0 0 :=
  ⟨(C9_cutoff_elision (cfgCo 1)).1 5 coApp 0 0 0 "co" (by decide) (by decide) rfl
      (by decide) (by decide),
   (C9_cutoff_elision (cfgCoShow 1)).2 5 coApp 0 0 0 (by decide) rfl⟩

/-- The depth/step guard of `pp` fires before anything else (helper and
substance of C1's first part). -/
theorem pp_guard (cfg : PPCfg) (fuel : Nat) (e : Expr) (d s : Nat)
    (h : d > cfg.opts.maxDepth ∨ s > cfg.opts.maxSteps) :
    pp cfg (fuel+1) e d s = (ellipsisResult cfg, s) := by
  have hb : (decide (d > cfg.opts.maxDepth) || decide (s > cfg.opts.maxSteps)) = true := by
    rcases h with h | h <;> simp [h]
  simp only [pp, hb, if_true]

/-- Exceeded depth truncates at every fuel (fuel exhaustion and the guard
produce the same ellipsis result). -/
theorem pp_depth_exceeded (cfg : PPCfg) (fuel : Nat) (e : Expr) (d s : Nat)
    (h : d > cfg.opts.maxDepth) : pp cfg fuel e d s = (ellipsisResult cfg, s) := by
  match fuel with
  | 0 => rfl
  | f+1 => exact pp_guard cfg f e d s (Or.inl h)

theorem cfgDS_isImplicit (mD mS : Nat) (f : Expr) : isImplicit (cfgDS mD mS) f = false := by
  by_cases h : f.closed <;> simp [isImplicit, cfgDS, h]

theorem cfgDS_ppChild_core (mD mS fuel : Nat) (e : Expr) (bp d s : Nat) :
    ppChild (cfgDS mD mS) (fuel+1) e bp d s = ppChildCore (cfgDS mD mS) fuel e bp d s := by
  by_cases happ : e.isApp
  · have h1 : isImplicit (cfgDS mD mS) e.appFn = false := cfgDS_isImplicit mD mS _
    have h2 : (cfgDS mD mS).opts.coercion = true := rfl
    simp [ppChild, happ, h1, h2]
  · simp [ppChild, happ]

theorem cfgDS_notationExpr (mD mS fuel : Nat) (e : Expr) (d s : Nat) :
    ppNotationExpr (cfgDS mD mS) fuel e d s = (none, s) := by
  match fuel with
  | 0 => rfl
  | f+1 =>
    by_cases hv : e.isVar
    · simp [ppNotationExpr, hv]
    · have hl : ∀ g, ppNotationList (cfgDS mD mS) g [] e d s = (none, s) := by
        intro g; cases g <;> rfl
      have he : (cfgDS mD mS).env.entriesFor e = [] := rfl
      have hn : (cfgDS mD mS).opts.notationOpt = true := rfl
      simp [ppNotationExpr, hv, he, hn, hl]

/-- Below the truncation threshold the rendering of a nested application
chain is entirely determined by the part above the threshold: two chains both
reaching past `max_depth` render identically (helper for C1). -/
theorem nestApp_pp_eq (mD mS : Nat) : ∀ fuel n n' d s,
    mD < d + n → mD < d + n' →
    pp (cfgDS mD mS) fuel (nestApp n) d s = pp (cfgDS mD mS) fuel (nestApp n') d s ∧
    (∀ bp, ppChildCore (cfgDS mD mS) fuel (nestApp n) bp d s
         = ppChildCore (cfgDS mD mS) fuel (nestApp n') bp d s) ∧
    (∀ bp, ppChild (cfgDS mD mS) fuel (nestApp n) bp d s
         = ppChild (cfgDS mD mS) fuel (nestApp n') bp d s) := by
  intro fuel
  induction fuel using Nat.strong_induction_on with
  | _ fuel IH =>
    intro n n' d s hn hn'
    match fuel with
    | 0 => exact ⟨rfl, fun _ => rfl, fun _ => rfl⟩
    | F+1 =>
      refine ⟨?_, ?_, ?_⟩
      · by_cases hgd : d > mD ∨ s > mS
        · rw [pp_guard _ F _ d s (by simpa [cfgDS] using hgd),
            pp_guard _ F _ d s (by simpa [cfgDS] using hgd)]
        · push_neg at hgd
          obtain ⟨m, rfl⟩ : ∃ m, n = m + 1 := ⟨n - 1, by omega⟩
          obtain ⟨m', rfl⟩ : ∃ m', n' = m' + 1 := ⟨n' - 1, by omega⟩
          have hb : (decide (d > (cfgDS mD mS).opts.maxDepth) ||
              decide (s > (cfgDS mD mS).opts.maxSteps)) = false := by
            have h1 : (cfgDS mD mS).opts.maxDepth = mD := rfl
            have h2 : (cfgDS mD mS).opts.maxSteps = mS := rfl
            rw [h1, h2]; simp; omega
          have hstep : ∀ (x : Expr),
              pp (cfgDS mD mS) (F+1) (.app (.const "f" []) x) d s
                = ppApp (cfgDS mD mS) F (.app (.const "f" []) x) (d+1) (s+1) := by
            intro x
            simp only [pp, hb, Bool.false_eq_true, if_false, cfgDS_notationExpr]
            rfl
          simp only [nestApp]
          rw [hstep, hstep]
          match F with
          | 0 => rfl
          | G+1 =>
            have happF : ∀ (x : Expr),
                ppApp (cfgDS mD mS) (G+1) (.app (.const "f" []) x) (d+1) (s+1)
                  = (let p1 := ppChild (cfgDS mD mS) G (.const "f" []) (maxBp - 1) (d+1) (s+1)
                     let p2 := ppChild (cfgDS mD mS) G x maxBp (d+1) p1.2
                     (Result.ofBp (maxBp - 1)
                       (.group (Format.compose p1.1.fmt
                         (.nest (cfgDS mD mS).opts.indent (Format.compose .line p2.1.fmt)))),
                      p2.2)) := by
              intro x
              have himp : (cfgDS mD mS).opts.implict = false := rfl
              simp only [ppApp, Expr.appFn, Expr.appArg, himp, Bool.false_and,
                Bool.false_eq_true, if_false]
            rw [happF, happF]
            have harg := (IH G (by omega) m m' (d+1)
              (ppChild (cfgDS mD mS) G (.const "f" []) (maxBp - 1) (d+1) (s+1)).2
              (by omega) (by omega)).2.2 maxBp
            simp only [harg]
      · intro bp
        match F with
        | 0 =>
          simp only [ppChildCore]
          rw [(IH 0 (by omega) n n' d s hn hn').1]
        | G+1 =>
          simp only [ppChildCore]
          rw [(IH (G+1) (by omega) n n' d s hn hn').1]
      · intro bp
        rw [cfgDS_ppChild_core, cfgDS_ppChild_core]
        exact (IH F (by omega) n n' d s hn hn').2.1 bp

theorem Format.contains_self (f : Format) : f.contains f = true := by
  cases f <;> simp [Format.contains]

theorem Format.contains_compose_left {a x : Format} (b : Format) (h : a.contains x = true) :
    (Format.compose a b).contains x = true := by
  simp [Format.contains, h]

theorem Format.contains_compose_right {b x : Format} (a : Format) (h : b.contains x = true) :
    (Format.compose a b).contains x = true := by
  simp [Format.contains, h]

theorem Format.contains_nest {f x : Format} (n : Nat) (h : f.contains x = true) :
    (Format.nest n f).contains x = true := by
  simp [Format.contains, h]

theorem Format.contains_group {f x : Format} (h : f.contains x = true) :
    (Format.group f).contains x = true := by
  simp [Format.contains, h]

theorem Format.contains_paren {f x : Format} (h : f.contains x = true) :
    (Format.paren f).contains x = true := by
  exact contains_group (contains_nest 1 (contains_compose_right _
    (contains_compose_left _ h)))

/-- An ellipsis marker occurs in the rendering of every nested application
chain that reaches past `max_depth` (helper for C1). -/
theorem nestApp_pp_ellipsis (mD mS : Nat) : ∀ fuel n d s, 1 ≤ n → mD < d + n →
    ((pp (cfgDS mD mS) fuel (nestApp n) d s).1.fmt.contains ellipsisNFmt) = true := by
  intro fuel
  induction fuel using Nat.strong_induction_on with
  | _ fuel IH =>
    intro n d s hn1 hn
    have hell : (ellipsisResult (cfgDS mD mS)).fmt = ellipsisNFmt := rfl
    match fuel with
    | 0 => rw [show (pp (cfgDS mD mS) 0 (nestApp n) d s).1 = ellipsisResult (cfgDS mD mS) from rfl,
        hell]; exact Format.contains_self _
    | F+1 =>
      by_cases hgd : d > mD ∨ s > mS
      · rw [pp_guard _ F _ d s (by simpa [cfgDS] using hgd)]
        rw [hell]; exact Format.contains_self _
      · push_neg at hgd
        obtain ⟨m, rfl⟩ : ∃ m, n = m + 1 := ⟨n - 1, by omega⟩
        have hb : (decide (d > (cfgDS mD mS).opts.maxDepth) ||
            decide (s > (cfgDS mD mS).opts.maxSteps)) = false := by
          have h1 : (cfgDS mD mS).opts.maxDepth = mD := rfl
          have h2 : (cfgDS mD mS).opts.maxSteps = mS := rfl
          rw [h1, h2]; simp; omega
        have hstep : ∀ (x : Expr),
            pp (cfgDS mD mS) (F+1) (.app (.const "f" []) x) d s
              = ppApp (cfgDS mD mS) F (.app (.const "f" []) x) (d+1) (s+1) := by
          intro x
          simp only [pp, hb, Bool.false_eq_true, if_false, cfgDS_notationExpr]
          rfl
        simp only [nestApp]
        rw [hstep]
        match F with
        | 0 => exact Format.contains_self _
        | G+1 =>
          have happF : ∀ (x : Expr),
              ppApp (cfgDS mD mS) (G+1) (.app (.const "f" []) x) (d+1) (s+1)
                = (let p1 := ppChild (cfgDS mD mS) G (.const "f" []) (maxBp - 1) (d+1) (s+1)
                   let p2 := ppChild (cfgDS mD mS) G x maxBp (d+1) p1.2
                   (Result.ofBp (maxBp - 1)
                     (.group (Format.compose p1.1.fmt
                       (.nest (cfgDS mD mS).opts.indent (Format.compose .line p2.1.fmt)))),
                    p2.2)) := by
            intro x
            have himp : (cfgDS mD mS).opts.implict = false := rfl
            simp only [ppApp, Expr.appFn, Expr.appArg, himp, Bool.false_and,
              Bool.false_eq_true, if_false]
          rw [happF]
          have harg : ((ppChild (cfgDS mD mS) G (nestApp m) maxBp (d+1)
              (ppChild (cfgDS mD mS) G (.const "f" []) (maxBp - 1) (d+1) (s+1)).2).1.fmt.contains
                ellipsisNFmt) = true := by
            set s2 := (ppChild (cfgDS mD mS) G (.const "f" []) (maxBp - 1) (d+1) (s+1)).2 with hs2
            match G with
            | 0 => exact Format.contains_self _
            | H+1 =>
              rw [cfgDS_ppChild_core]
              match H with
              | 0 => exact Format.contains_self _
              | H'+1 =>
                simp only [ppChildCore]
                have hcont : ((pp (cfgDS mD mS) H' (nestApp m) (d+1) s2).1.fmt.contains
                    ellipsisNFmt) = true := by
                  match m, hn with
                  | 0, hn =>
                    rw [pp_depth_exceeded _ _ _ _ _ (show d+1 > (cfgDS mD mS).opts.maxDepth by
                      have h1 : (cfgDS mD mS).opts.maxDepth = mD := rfl
                      rw [h1]; omega)]
                    rw [hell]; exact Format.contains_self _
                  | m''+1, hn =>
                    exact IH H' (by omega) (m''+1) (d+1) s2 (by omega) (by omega)
                rcases hres : pp (cfgDS mD mS) H' (nestApp m) (d+1) s2 with ⟨r, s3⟩
                rw [hres] at hcont
                simp only at hcont ⊢
                by_cases hbp : r.rbp < maxBp
                · rw [if_pos hbp]
                  exact Format.contains_paren hcont
                · rw [if_neg hbp]
                  exact hcont
          exact Format.contains_group (Format.contains_compose_right _
            (Format.contains_nest _ (Format.contains_compose_right _ harg)))

/-- C1. (i) Entered with the depth counter strictly above `max_depth`, or the
step counter strictly above `max_steps`, `pp` returns the fixed ellipsis
result immediately, with the step counter untouched (no recursion).
(ii) Rendering a chain nested `max_depth + 1 + k` deep is literally equal,
result and final step count alike, to rendering the chain nested
`max_depth + 1` deep — the work done is bounded independently of `k`.
(iii) The rendering of every chain nested past `max_depth` carries the
ellipsis marker at the truncation point. -/
theorem C1_truncation :
    (∀ cfg fuel e d s, (d > cfg.opts.maxDepth ∨ s > cfg.opts.maxSteps) →
        pp cfg (fuel+1) e d s = (ellipsisResult cfg, s)) ∧
    (∀ mD mS fuel k,
        pp (cfgDS mD mS) fuel (nestApp (mD + 1 + k)) 0 0
          = pp (cfgDS mD mS) fuel (nestApp (mD + 1)) 0 0) ∧
    (∀ mD mS fuel k,
        ((pp (cfgDS mD mS) fuel (nestApp (mD + 1 + k)) 0 0).1.fmt.contains ellipsisNFmt)
          = true) :=
  ⟨fun cfg fuel e d s h => pp_guard cfg fuel e d s h,
   fun mD mS fuel k =>
     (nestApp_pp_eq mD mS fuel (mD + 1 + k) (mD + 1) 0 0 (by omega) (by omega)).1,
   fun mD mS fuel k =>
     nestApp_pp_ellipsis mD mS fuel (mD + 1 + k) 0 0 (by omega) (by omega)⟩

/-- C1, witness: at depth 65 (limit 64) the guard truncates immediately. -/
theorem C1_witness :
    pp cfg0 5 (.const "q" []) 65 0 = (ellipsisResult cfg0, 0) ∧
    pp (cfgDS 2 100) 30 (nestApp 7) 0 0 = pp (cfgDS 2 100) 30 (nestApp 3) 0 0 :=
  ⟨C1_truncation.1 cfg0 4 (.const "q" []) 65 0 (Or.inl (by decide)),
   C1_truncation.2.1 2 100 30 4⟩

theorem alookup_cons (t : List (Name × Name)) (m x k : Name) :
    alookup ((m, x) :: t) k = if k = m then some x else alookup t k := rfl

theorem PExt.refl (st : PurifySt) : PExt st st :=
  ⟨fun _ _ h => h, fun _ _ h => h, fun _ h => h, Nat.le_refl _, rfl⟩

theorem PExt.trans {a b c : PurifySt} (h1 : PExt a b) (h2 : PExt b c) : PExt a c :=
  ⟨fun k v h => h2.1 k v (h1.1 k v h), fun k v h => h2.2.1 k v (h1.2.1 k v h),
   fun n h => h2.2.2.1 n (h1.2.2.1 n h), Nat.le_trans h1.2.2.2.1 h2.2.2.2.1,
   h1.2.2.2.2.trans h2.2.2.2.2⟩

theorem mkMetavarName_ext (st : PurifySt) (m : Name) : PExt st (mkMetavarName st m).2 := by
  unfold mkMetavarName
  cases h : alookup st.metaTable m with
  | some r => exact PExt.refl st
  | none =>
    refine ⟨?_, fun _ _ h => h, fun _ h => h, by simp, rfl⟩
    intro k v hk
    rw [alookup_cons, if_neg]
    · exact hk
    · rintro rfl; rw [h] at hk; exact Option.noConfusion hk

theorem mkLocalName_ext (st : PurifySt) (n sugg : Name) : PExt st (mkLocalName st n sugg).2 := by
  unfold mkLocalName
  cases h : alookup st.localTable n with
  | some r => exact PExt.refl st
  | none =>
    refine ⟨fun _ _ h => h, ?_, fun x hx => List.mem_cons_of_mem _ hx, Nat.le_refl _, rfl⟩
    intro k v hk
    rw [alookup_cons, if_neg]
    · exact hk
    · rintro rfl; rw [h] at hk; exact Option.noConfusion hk

theorem purifyLevelCore_ext (st : PurifySt) (l : Level) : PExt st (purifyLevelCore st l).2 := by
  induction l generalizing st with
  | zero => exact PExt.refl st
  | succ l1 ih =>
    by_cases h : (Level.succ l1).hasMeta
    · simp only [purifyLevelCore, h, Bool.not_true, Bool.false_eq_true, if_false]
      exact ih st
    · simp only [purifyLevelCore, h, Bool.not_false, if_true]
      exact PExt.refl st
  | max a b iha ihb =>
    by_cases h : (Level.max a b).hasMeta
    · simp only [purifyLevelCore, h, Bool.not_true, Bool.false_eq_true, if_false]
      exact PExt.trans (iha st) (ihb _)
    · simp only [purifyLevelCore, h, Bool.not_false, if_true]
      exact PExt.refl st
  | imax a b iha ihb =>
    by_cases h : (Level.imax a b).hasMeta
    · simp only [purifyLevelCore, h, Bool.not_true, Bool.false_eq_true, if_false]
      exact PExt.trans (iha st) (ihb _)
    · simp only [purifyLevelCore, h, Bool.not_false, if_true]
      exact PExt.refl st
  | param n => exact PExt.refl st
  | mvar n =>
    by_cases h : (Level.mvar n).hasMeta
    · simp only [purifyLevelCore, h, Bool.not_true, Bool.false_eq_true, if_false]
      exact mkMetavarName_ext st n
    · simp only [purifyLevelCore, h, Bool.not_false, if_true]
      exact PExt.refl st
  | placeholder => exact PExt.refl st

theorem purifyLevel_ext (u : Bool) (st : PurifySt) (l : Level) :
    PExt st (purifyLevel u st l).2 := by
  unfold purifyLevel
  by_cases h : (!u || !l.hasMeta) = true
  · simp only [h, if_true]; exact PExt.refl st
  · simp only [h, Bool.false_eq_true, if_false]; exact purifyLevelCore_ext st l

theorem purifyLevels_ext (u : Bool) : ∀ (ls : List Level) (st : PurifySt),
    PExt st (purifyLevels u st ls).2 := by
  intro ls
  induction ls with
  | nil => intro st; exact PExt.refl st
  | cons l ls ih =>
    intro st
    simp only [purifyLevels]
    exact PExt.trans (purifyLevel_ext u st l) (ih _)

theorem purifyExpr_ext (u : Bool) : ∀ (e : Expr) (st : PurifySt),
    PExt st (purifyExpr u st e).2 := by
  intro e
  induction e with
  | var i =>
    intro st
    by_cases h : purifySkip u (.var i)
    · simp only [purifyExpr, h, if_true]; exact PExt.refl st
    · simp only [purifyExpr, h, if_false]; exact PExt.refl st
  | sort l =>
    intro st
    by_cases h : purifySkip u (.sort l)
    · simp only [purifyExpr, h, if_true]; exact PExt.refl st
    · simp only [purifyExpr, h, if_false]; exact purifyLevel_ext u st l
  | const n ls =>
    intro st
    by_cases h : purifySkip u (.const n ls)
    · simp only [purifyExpr, h, if_true]; exact PExt.refl st
    · simp only [purifyExpr, h, if_false]; exact purifyLevels_ext u ls st
  | meta m ty ih =>
    intro st
    by_cases h : purifySkip u (.meta m ty)
    · simp only [purifyExpr, h, if_true]; exact PExt.refl st
    · simp only [purifyExpr, h, if_false]; exact mkMetavarName_ext st m
  | localE idn ppn ty bi ih =>
    intro st
    by_cases h : purifySkip u (.localE idn ppn ty bi)
    · simp only [purifyExpr, h, if_true]; exact PExt.refl st
    · simp only [purifyExpr, h, if_false]; exact mkLocalName_ext st idn ppn
  | app f a ihf iha =>
    intro st
    by_cases h : purifySkip u (.app f a)
    · simp only [purifyExpr, h, if_true]; exact PExt.refl st
    · simp only [purifyExpr, h, if_false]; exact PExt.trans (ihf st) (iha _)
  | lam n d b bi ihd ihb =>
    intro st
    by_cases h : purifySkip u (.lam n d b bi)
    · simp only [purifyExpr, h, if_true]; exact PExt.refl st
    · simp only [purifyExpr, h, if_false]; exact PExt.trans (ihd st) (ihb _)
  | pi n d b bi ihd ihb =>
    intro st
    by_cases h : purifySkip u (.pi n d b bi)
    · simp only [purifyExpr, h, if_true]; exact PExt.refl st
    · simp only [purifyExpr, h, if_false]; exact PExt.trans (ihd st) (ihb _)
  | annot an a ih =>
    intro st
    by_cases h : purifySkip u (.annot an a)
    · simp only [purifyExpr, h, if_true]; exact PExt.refl st
    · simp only [purifyExpr, h, if_false]; exact ih st
  | letM n v b ihv ihb =>
    intro st
    by_cases h : purifySkip u (.letM n v b)
    · simp only [purifyExpr, h, if_true]; exact PExt.refl st
    · simp only [purifyExpr, h, if_false]; exact PExt.trans (ihv st) (ihb _)
  | letVal v ih =>
    intro st
    by_cases h : purifySkip u (.letVal v)
    · simp only [purifyExpr, h, if_true]; exact PExt.refl st
    · simp only [purifyExpr, h, if_false]; exact ih st
  | typedE ty x ihty ihx =>
    intro st
    by_cases h : purifySkip u (.typedE ty x)
    · simp only [purifyExpr, h, if_true]; exact PExt.refl st
    · simp only [purifyExpr, h, if_false]; exact PExt.trans (ihty st) (ihx _)
  | explicitE x ih =>
    intro st
    by_cases h : purifySkip u (.explicitE x)
    · simp only [purifyExpr, h, if_true]; exact PExt.refl st
    · simp only [purifyExpr, h, if_false]; exact ih st
  | placeholderE =>
    intro st
    by_cases h : purifySkip u .placeholderE
    · simp only [purifyExpr, h, if_true]; exact PExt.refl st
    · simp only [purifyExpr, h, if_false]; exact PExt.refl st

/-- C4, counterexample. The purification tables are member state of the
shared `pretty_fn`, and `operator()` (pp.cpp line 820) resets only the depth
and step counters — so after a first print of a metavariable the state the
second call starts from has a non-empty metavariable table and an advanced
counter, and a second call on a *different* metavariable prints `?M2`, not
the `?M1` a fresh printer would produce: distinct calls do not reuse short
names. -/
theorem C4_counterexample_tables_persist :
    (¬ ((applyPrettyFn 10 (mkPrettyFn cfg0) (.meta "m" (.sort .zero))).2.purify.metaTable = [] ∧
        (applyPrettyFn 10 (mkPrettyFn cfg0) (.meta "m" (.sort .zero))).2.purify.nextMetaIdx = 1)) ∧
    (applyPrettyFn 10 ((applyPrettyFn 10 (mkPrettyFn cfg0) (.meta "m" (.sort .zero))).2)
        (.meta "m2" (.sort .zero))).1 ≠
      (applyPrettyFn 10 (mkPrettyFn cfg0) (.meta "m2" (.sort .zero))).1 := by
  constructor
  · decide
  · decide

/-- C4, amended. What *is* scoped to a single print call are the depth and
step counters, which `operator()` resets at entry; the purification tables
and the metavariable counter persist in the shared `pretty_fn`: a call's
output state extends its input state (no entry, used name, or counter value
is ever dropped), and the depth/step members of the input are irrelevant to
the call.  Consequently display names are stable across calls of one printer
and short names are not reusable by later calls. -/
theorem C4_tables_shared_across_calls (fuel : Nat) (st : PrettyFn) (e : Expr) :
    PExt st.purify ((applyPrettyFn fuel st e).2.purify) ∧
    (applyPrettyFn fuel st e).2.depth = 0 ∧
    (∀ d0 s0, applyPrettyFn fuel { st with depth := d0, numSteps := s0 } e
        = applyPrettyFn fuel st e) := by
  refine ⟨?_, rfl, fun d0 s0 => rfl⟩
  show PExt st.purify (purifyExpr _ st.purify _).2
  exact purifyExpr_ext _ _ _

theorem Purified_mono {st st' : PurifySt} (h : PExt st st') :
    ∀ e, Purified st e → Purified st' e := by
  intro e
  induction e with
  | var i => intro _; trivial
  | sort l => intro _; trivial
  | const n ls => intro _; trivial
  | meta m ty ih => intro hp; exact hp
  | localE idn ppn ty bi ih => intro hp; exact h.2.1 idn ppn hp
  | app f a ihf iha => intro hp; exact ⟨ihf hp.1, iha hp.2⟩
  | lam n d b bi ihd ihb => intro hp; exact ⟨ihd hp.1, ihb hp.2⟩
  | pi n d b bi ihd ihb => intro hp; exact ⟨ihd hp.1, ihb hp.2⟩
  | annot an a ih => intro hp; exact ih hp
  | letM n v b ihv ihb => intro hp; exact ⟨ihv hp.1, ihb hp.2⟩
  | letVal v ih => intro hp; exact ih hp
  | typedE ty x ihty ihx => intro hp; exact ⟨ihty hp.1, ihx hp.2⟩
  | explicitE x ih => intro hp; exact ih hp
  | placeholderE => intro _; trivial

theorem Purified_of_no_locals (st : PurifySt) :
    ∀ e, Expr.hasLocal e = false → Expr.hasExprMetavar e = false → Purified st e := by
  intro e
  induction e with
  | var i => intro _ _; trivial
  | sort l => intro _ _; trivial
  | const n ls => intro _ _; trivial
  | meta m ty ih => intro _ hm; exact absurd hm (by simp [Expr.hasExprMetavar])
  | localE idn ppn ty bi ih => intro hl _; exact absurd hl (by simp [Expr.hasLocal])
  | app f a ihf iha =>
    intro hl hm
    simp only [Expr.hasLocal, Bool.or_eq_false_iff] at hl
    simp only [Expr.hasExprMetavar, Bool.or_eq_false_iff] at hm
    exact ⟨ihf hl.1 hm.1, iha hl.2 hm.2⟩
  | lam n d b bi ihd ihb =>
    intro hl hm
    simp only [Expr.hasLocal, Bool.or_eq_false_iff] at hl
    simp only [Expr.hasExprMetavar, Bool.or_eq_false_iff] at hm
    exact ⟨ihd hl.1 hm.1, ihb hl.2 hm.2⟩
  | pi n d b bi ihd ihb =>
    intro hl hm
    simp only [Expr.hasLocal, Bool.or_eq_false_iff] at hl
    simp only [Expr.hasExprMetavar, Bool.or_eq_false_iff] at hm
    exact ⟨ihd hl.1 hm.1, ihb hl.2 hm.2⟩
  | annot an a ih =>
    intro hl hm
    exact ih (by simpa [Expr.hasLocal] using hl) (by simpa [Expr.hasExprMetavar] using hm)
  | letM n v b ihv ihb =>
    intro hl hm
    simp only [Expr.hasLocal, Bool.or_eq_false_iff] at hl
    simp only [Expr.hasExprMetavar, Bool.or_eq_false_iff] at hm
    exact ⟨ihv hl.1 hm.1, ihb hl.2 hm.2⟩
  | letVal v ih =>
    intro hl hm
    exact ih (by simpa [Expr.hasLocal] using hl) (by simpa [Expr.hasExprMetavar] using hm)
  | typedE ty x ihty ihx =>
    intro hl hm
    simp only [Expr.hasLocal, Bool.or_eq_false_iff] at hl
    simp only [Expr.hasExprMetavar, Bool.or_eq_false_iff] at hm
    exact ⟨ihty hl.1 hm.1, ihx hl.2 hm.2⟩
  | explicitE x ih =>
    intro hl hm
    exact ih (by simpa [Expr.hasLocal] using hl) (by simpa [Expr.hasExprMetavar] using hm)
  | placeholderE => intro _ _; trivial

theorem mkLocalName_lookup (st : PurifySt) (n sugg : Name) :
    alookup (mkLocalName st n sugg).2.localTable n = some (mkLocalName st n sugg).1 := by
  unfold mkLocalName
  cases h : alookup st.localTable n with
  | some r => exact h
  | none => simp [alookup_cons]

theorem purifySkip_elim {u : Bool} {e : Expr} (h : purifySkip u e = true) :
    e.hasExprMetavar = false ∧ e.hasLocal = false := by
  simp only [purifySkip, Bool.and_eq_true, Bool.not_eq_true'] at h
  exact ⟨h.1.1, h.1.2⟩

theorem purify_purified (u : Bool) : ∀ (e : Expr) (st : PurifySt),
    e.hasExprMetavar = false →
    Purified (purifyExpr u st e).2 (purifyExpr u st e).1 := by
  intro e
  induction e with
  | var i =>
    intro st _
    by_cases h : purifySkip u (.var i) <;> simp [purifyExpr, h, Purified]
  | sort l =>
    intro st _
    by_cases h : purifySkip u (.sort l) <;> simp [purifyExpr, h, Purified]
  | const n ls =>
    intro st _
    by_cases h : purifySkip u (.const n ls) <;> simp [purifyExpr, h, Purified]
  | meta m ty ih =>
    intro st hm
    exact absurd hm (by simp [Expr.hasExprMetavar])
  | localE idn ppn ty bi ih =>
    intro st hm
    by_cases h : purifySkip u (.localE idn ppn ty bi)
    · exact absurd (purifySkip_elim h).2 (by simp [Expr.hasLocal])
    · simp only [purifyExpr, h, if_false]
      exact mkLocalName_lookup st idn ppn
  | app f a ihf iha =>
    intro st hm
    simp only [Expr.hasExprMetavar, Bool.or_eq_false_iff] at hm
    by_cases h : purifySkip u (.app f a)
    · simp only [purifyExpr, h, if_true]
      exact Purified_of_no_locals st _ (purifySkip_elim h).2 (by simp [Expr.hasExprMetavar, hm])
    · simp only [purifyExpr, h, if_false]
      exact ⟨Purified_mono (purifyExpr_ext u a _) _ (ihf st hm.1), iha _ hm.2⟩
  | lam n d b bi ihd ihb =>
    intro st hm
    simp only [Expr.hasExprMetavar, Bool.or_eq_false_iff] at hm
    by_cases h : purifySkip u (.lam n d b bi)
    · simp only [purifyExpr, h, if_true]
      exact Purified_of_no_locals st _ (purifySkip_elim h).2 (by simp [Expr.hasExprMetavar, hm])
    · simp only [purifyExpr, h, if_false]
      exact ⟨Purified_mono (purifyExpr_ext u b _) _ (ihd st hm.1), ihb _ hm.2⟩
  | pi n d b bi ihd ihb =>
    intro st hm
    simp only [Expr.hasExprMetavar, Bool.or_eq_false_iff] at hm
    by_cases h : purifySkip u (.pi n d b bi)
    · simp only [purifyExpr, h, if_true]
      exact Purified_of_no_locals st _ (purifySkip_elim h).2 (by simp [Expr.hasExprMetavar, hm])
    · simp only [purifyExpr, h, if_false]
      exact ⟨Purified_mono (purifyExpr_ext u b _) _ (ihd st hm.1), ihb _ hm.2⟩
  | annot an a ih =>
    intro st hm
    simp only [Expr.hasExprMetavar] at hm
    by_cases h : purifySkip u (.annot an a)
    · simp only [purifyExpr, h, if_true]
      exact Purified_of_no_locals st _ (purifySkip_elim h).2 (by simp [Expr.hasExprMetavar, hm])
    · simp only [purifyExpr, h, if_false]
      exact ih st hm
  | letM n v b ihv ihb =>
    intro st hm
    simp only [Expr.hasExprMetavar, Bool.or_eq_false_iff] at hm
    by_cases h : purifySkip u (.letM n v b)
    · simp only [purifyExpr, h, if_true]
      exact Purified_of_no_locals st _ (purifySkip_elim h).2 (by simp [Expr.hasExprMetavar, hm])
    · simp only [purifyExpr, h, if_false]
      exact ⟨Purified_mono (purifyExpr_ext u b _) _ (ihv st hm.1), ihb _ hm.2⟩
  | letVal v ih =>
    intro st hm
    simp only [Expr.hasExprMetavar] at hm
    by_cases h : purifySkip u (.letVal v)
    · simp only [purifyExpr, h, if_true]
      exact Purified_of_no_locals st _ (purifySkip_elim h).2 (by simp [Expr.hasExprMetavar, hm])
    · simp only [purifyExpr, h, if_false]
      exact ih st hm
  | typedE ty x ihty ihx =>
    intro st hm
    simp only [Expr.hasExprMetavar, Bool.or_eq_false_iff] at hm
    by_cases h : purifySkip u (.typedE ty x)
    · simp only [purifyExpr, h, if_true]
      exact Purified_of_no_locals st _ (purifySkip_elim h).2 (by simp [Expr.hasExprMetavar, hm])
    · simp only [purifyExpr, h, if_false]
      exact ⟨Purified_mono (purifyExpr_ext u x _) _ (ihty st hm.1), ihx _ hm.2⟩
  | explicitE x ih =>
    intro st hm
    simp only [Expr.hasExprMetavar] at hm
    by_cases h : purifySkip u (.explicitE x)
    · simp only [purifyExpr, h, if_true]
      exact Purified_of_no_locals st _ (purifySkip_elim h).2 (by simp [Expr.hasExprMetavar, hm])
    · simp only [purifyExpr, h, if_false]
      exact ih st hm
  | placeholderE =>
    intro st _
    by_cases h : purifySkip u .placeholderE <;> simp [purifyExpr, h, Purified]

theorem purifyLevel_no_meta (u : Bool) (st : PurifySt) (l : Level) (h : l.hasMeta = false) :
    purifyLevel u st l = (l, st) := by
  simp [purifyLevel, h]

theorem purifyLevels_no_meta (u : Bool) : ∀ (ls : List Level) (st : PurifySt),
    ls.any Level.hasMeta = false → purifyLevels u st ls = (ls, st) := by
  intro ls
  induction ls with
  | nil => intro st _; rfl
  | cons l ls ih =>
    intro st h
    simp only [List.any_cons, Bool.or_eq_false_iff] at h
    simp [purifyLevels, purifyLevel_no_meta u st l h.1, ih st h.2]

theorem purify_no_new_em (u : Bool) : ∀ (e : Expr) (st : PurifySt),
    e.hasExprMetavar = false → (purifyExpr u st e).1.hasExprMetavar = false := by
  intro e
  induction e with
  | var i =>
    intro st _; by_cases h : purifySkip u (.var i) <;> simp [purifyExpr, h, Expr.hasExprMetavar]
  | sort l =>
    intro st _; by_cases h : purifySkip u (.sort l) <;> simp [purifyExpr, h, Expr.hasExprMetavar]
  | const n ls =>
    intro st _
    by_cases h : purifySkip u (.const n ls) <;> simp [purifyExpr, h, Expr.hasExprMetavar]
  | meta m ty ih => intro st hm; exact absurd hm (by simp [Expr.hasExprMetavar])
  | localE idn ppn ty bi ih =>
    intro st hm
    simp only [Expr.hasExprMetavar] at hm
    by_cases h : purifySkip u (.localE idn ppn ty bi) <;>
      simp [purifyExpr, h, Expr.hasExprMetavar, hm]
  | app f a ihf iha =>
    intro st hm
    simp only [Expr.hasExprMetavar, Bool.or_eq_false_iff] at hm
    by_cases h : purifySkip u (.app f a)
    · simp [purifyExpr, h, Expr.hasExprMetavar, hm]
    · simp [purifyExpr, h, Expr.hasExprMetavar, ihf st hm.1, iha _ hm.2]
  | lam n d b bi ihd ihb =>
    intro st hm
    simp only [Expr.hasExprMetavar, Bool.or_eq_false_iff] at hm
    by_cases h : purifySkip u (.lam n d b bi)
    · simp [purifyExpr, h, Expr.hasExprMetavar, hm]
    · simp [purifyExpr, h, Expr.hasExprMetavar, ihd st hm.1, ihb _ hm.2]
  | pi n d b bi ihd ihb =>
    intro st hm
    simp only [Expr.hasExprMetavar, Bool.or_eq_false_iff] at hm
    by_cases h : purifySkip u (.pi n d b bi)
    · simp [purifyExpr, h, Expr.hasExprMetavar, hm]
    · simp [purifyExpr, h, Expr.hasExprMetavar, ihd st hm.1, ihb _ hm.2]
  | annot an a ih =>
    intro st hm
    simp only [Expr.hasExprMetavar] at hm
    by_cases h : purifySkip u (.annot an a)
    · simp [purifyExpr, h, Expr.hasExprMetavar, hm]
    · simp [purifyExpr, h, Expr.hasExprMetavar, ih st hm]
  | letM n v b ihv ihb =>
    intro st hm
    simp only [Expr.hasExprMetavar, Bool.or_eq_false_iff] at hm
    by_cases h : purifySkip u (.letM n v b)
    · simp [purifyExpr, h, Expr.hasExprMetavar, hm]
    · simp [purifyExpr, h, Expr.hasExprMetavar, ihv st hm.1, ihb _ hm.2]
  | letVal v ih =>
    intro st hm
    simp only [Expr.hasExprMetavar] at hm
    by_cases h : purifySkip u (.letVal v)
    · simp [purifyExpr, h, Expr.hasExprMetavar, hm]
    · simp [purifyExpr, h, Expr.hasExprMetavar, ih st hm]
  | typedE ty x ihty ihx =>
    intro st hm
    simp only [Expr.hasExprMetavar, Bool.or_eq_false_iff] at hm
    by_cases h : purifySkip u (.typedE ty x)
    · simp [purifyExpr, h, Expr.hasExprMetavar, hm]
    · simp [purifyExpr, h, Expr.hasExprMetavar, ihty st hm.1, ihx _ hm.2]
  | explicitE x ih =>
    intro st hm
    simp only [Expr.hasExprMetavar] at hm
    by_cases h : purifySkip u (.explicitE x)
    · simp [purifyExpr, h, Expr.hasExprMetavar, hm]
    · simp [purifyExpr, h, Expr.hasExprMetavar, ih st hm]
  | placeholderE =>
    intro st _
    by_cases h : purifySkip u .placeholderE <;> simp [purifyExpr, h, Expr.hasExprMetavar]

theorem purify_no_new_um (u : Bool) : ∀ (e : Expr) (st : PurifySt),
    e.hasUnivMetavar = false → (purifyExpr u st e).1.hasUnivMetavar = false := by
  intro e
  induction e with
  | var i =>
    intro st _; by_cases h : purifySkip u (.var i) <;> simp [purifyExpr, h, Expr.hasUnivMetavar]
  | sort l =>
    intro st hm
    simp only [Expr.hasUnivMetavar] at hm
    by_cases h : purifySkip u (.sort l)
    · simp [purifyExpr, h, Expr.hasUnivMetavar, hm]
    · simp [purifyExpr, h, purifyLevel_no_meta u st l hm, Expr.hasUnivMetavar, hm]
  | const n ls =>
    intro st hm
    simp only [Expr.hasUnivMetavar] at hm
    by_cases h : purifySkip u (.const n ls)
    · simp [purifyExpr, h, Expr.hasUnivMetavar, hm]
    · simp [purifyExpr, h, purifyLevels_no_meta u ls st hm, Expr.hasUnivMetavar, hm]
  | meta m ty ih =>
    intro st hm
    simp only [Expr.hasUnivMetavar] at hm
    by_cases h : purifySkip u (.meta m ty)
    · simp [purifyExpr, h, Expr.hasUnivMetavar, hm]
    · simp [purifyExpr, h, Expr.hasUnivMetavar, hm]
  | localE idn ppn ty bi ih =>
    intro st hm
    simp only [Expr.hasUnivMetavar] at hm
    by_cases h : purifySkip u (.localE idn ppn ty bi) <;>
      simp [purifyExpr, h, Expr.hasUnivMetavar, hm]
  | app f a ihf iha =>
    intro st hm
    simp only [Expr.hasUnivMetavar, Bool.or_eq_false_iff] at hm
    by_cases h : purifySkip u (.app f a)
    · simp [purifyExpr, h, Expr.hasUnivMetavar, hm]
    · simp [purifyExpr, h, Expr.hasUnivMetavar, ihf st hm.1, iha _ hm.2]
  | lam n d b bi ihd ihb =>
    intro st hm
    simp only [Expr.hasUnivMetavar, Bool.or_eq_false_iff] at hm
    by_cases h : purifySkip u (.lam n d b bi)
    · simp [purifyExpr, h, Expr.hasUnivMetavar, hm]
    · simp [purifyExpr, h, Expr.hasUnivMetavar, ihd st hm.1, ihb _ hm.2]
  | pi n d b bi ihd ihb =>
    intro st hm
    simp only [Expr.hasUnivMetavar, Bool.or_eq_false_iff] at hm
    by_cases h : purifySkip u (.pi n d b bi)
    · simp [purifyExpr, h, Expr.hasUnivMetavar, hm]
    · simp [purifyExpr, h, Expr.hasUnivMetavar, ihd st hm.1, ihb _ hm.2]
  | annot an a ih =>
    intro st hm
    simp only [Expr.hasUnivMetavar] at hm
    by_cases h : purifySkip u (.annot an a)
    · simp [purifyExpr, h, Expr.hasUnivMetavar, hm]
    · simp [purifyExpr, h, Expr.hasUnivMetavar, ih st hm]
  | letM n v b ihv ihb =>
    intro st hm
    simp only [Expr.hasUnivMetavar, Bool.or_eq_false_iff] at hm
    by_cases h : purifySkip u (.letM n v b)
    · simp [purifyExpr, h, Expr.hasUnivMetavar, hm]
    · simp [purifyExpr, h, Expr.hasUnivMetavar, ihv st hm.1, ihb _ hm.2]
  | letVal v ih =>
    intro st hm
    simp only [Expr.hasUnivMetavar] at hm
    by_cases h : purifySkip u (.letVal v)
    · simp [purifyExpr, h, Expr.hasUnivMetavar, hm]
    · simp [purifyExpr, h, Expr.hasUnivMetavar, ih st hm]
  | typedE ty x ihty ihx =>
    intro st hm
    simp only [Expr.hasUnivMetavar, Bool.or_eq_false_iff] at hm
    by_cases h : purifySkip u (.typedE ty x)
    · simp [purifyExpr, h, Expr.hasUnivMetavar, hm]
    · simp [purifyExpr, h, Expr.hasUnivMetavar, ihty st hm.1, ihx _ hm.2]
  | explicitE x ih =>
    intro st hm
    simp only [Expr.hasUnivMetavar] at hm
    by_cases h : purifySkip u (.explicitE x)
    · simp [purifyExpr, h, Expr.hasUnivMetavar, hm]
    · simp [purifyExpr, h, Expr.hasUnivMetavar, ih st hm]
  | placeholderE =>
    intro st _
    by_cases h : purifySkip u .placeholderE <;> simp [purifyExpr, h, Expr.hasUnivMetavar]

theorem purify_stable (u : Bool) : ∀ (e : Expr) (st : PurifySt),
    Purified st e → e.hasExprMetavar = false → (u = false ∨ e.hasUnivMetavar = false) →
    purifyExpr u st e = (e, st) := by
  intro e
  induction e with
  | var i =>
    intro st _ _ _
    have h : purifySkip u (.var i) = true := by
      simp [purifySkip, Expr.hasExprMetavar, Expr.hasLocal, Expr.hasUnivMetavar]
    simp [purifyExpr, h]
  | sort l =>
    intro st _ _ hu
    have h : purifySkip u (.sort l) = true := by
      rcases hu with hu | hu
      · simp [purifySkip, Expr.hasExprMetavar, Expr.hasLocal, Expr.hasUnivMetavar, hu]
      · simp only [Expr.hasUnivMetavar] at hu
        simp [purifySkip, Expr.hasExprMetavar, Expr.hasLocal, Expr.hasUnivMetavar, hu]
    simp [purifyExpr, h]
  | const n ls =>
    intro st _ _ hu
    have h : purifySkip u (.const n ls) = true := by
      rcases hu with hu | hu
      · simp [purifySkip, Expr.hasExprMetavar, Expr.hasLocal, Expr.hasUnivMetavar, hu]
      · simp only [Expr.hasUnivMetavar] at hu
        simp [purifySkip, Expr.hasExprMetavar, Expr.hasLocal, Expr.hasUnivMetavar, hu]
    simp [purifyExpr, h]
  | meta m ty ih => intro st hp _ _; exact hp.elim
  | localE idn ppn ty bi ih =>
    intro st hp _ _
    by_cases h : purifySkip u (.localE idn ppn ty bi)
    · exact absurd (purifySkip_elim h).2 (by simp [Expr.hasLocal])
    · simp only [purifyExpr, h, if_false]
      simp only [Purified] at hp
      simp [mkLocalName, hp]
  | app f a ihf iha =>
    intro st hp hm hu
    simp only [Expr.hasExprMetavar, Bool.or_eq_false_iff] at hm
    have hu' : (u = false ∨ f.hasUnivMetavar = false) ∧ (u = false ∨ a.hasUnivMetavar = false) := by
      rcases hu with hu | hu
      · exact ⟨Or.inl hu, Or.inl hu⟩
      · simp only [Expr.hasUnivMetavar, Bool.or_eq_false_iff] at hu
        exact ⟨Or.inr hu.1, Or.inr hu.2⟩
    by_cases h : purifySkip u (.app f a)
    · simp [purifyExpr, h]
    · simp only [purifyExpr, h, if_false]
      simp [ihf st hp.1 hm.1 hu'.1, iha st hp.2 hm.2 hu'.2]
  | lam n d b bi ihd ihb =>
    intro st hp hm hu
    simp only [Expr.hasExprMetavar, Bool.or_eq_false_iff] at hm
    have hu' : (u = false ∨ d.hasUnivMetavar = false) ∧ (u = false ∨ b.hasUnivMetavar = false) := by
      rcases hu with hu | hu
      · exact ⟨Or.inl hu, Or.inl hu⟩
      · simp only [Expr.hasUnivMetavar, Bool.or_eq_false_iff] at hu
        exact ⟨Or.inr hu.1, Or.inr hu.2⟩
    by_cases h : purifySkip u (.lam n d b bi)
    · simp [purifyExpr, h]
    · simp only [purifyExpr, h, if_false]
      simp [ihd st hp.1 hm.1 hu'.1, ihb st hp.2 hm.2 hu'.2]
  | pi n d b bi ihd ihb =>
    intro st hp hm hu
    simp only [Expr.hasExprMetavar, Bool.or_eq_false_iff] at hm
    have hu' : (u = false ∨ d.hasUnivMetavar = false) ∧ (u = false ∨ b.hasUnivMetavar = false) := by
      rcases hu with hu | hu
      · exact ⟨Or.inl hu, Or.inl hu⟩
      · simp only [Expr.hasUnivMetavar, Bool.or_eq_false_iff] at hu
        exact ⟨Or.inr hu.1, Or.inr hu.2⟩
    by_cases h : purifySkip u (.pi n d b bi)
    · simp [purifyExpr, h]
    · simp only [purifyExpr, h, if_false]
      simp [ihd st hp.1 hm.1 hu'.1, ihb st hp.2 hm.2 hu'.2]
  | annot an a ih =>
    intro st hp hm hu
    simp only [Expr.hasExprMetavar] at hm
    have hu' : u = false ∨ a.hasUnivMetavar = false := by
      rcases hu with hu | hu
      · exact Or.inl hu
      · simp only [Expr.hasUnivMetavar] at hu
        exact Or.inr hu
    by_cases h : purifySkip u (.annot an a)
    · simp [purifyExpr, h]
    · simp only [purifyExpr, h, if_false]
      simp [ih st hp hm hu']
  | letM n v b ihv ihb =>
    intro st hp hm hu
    simp only [Expr.hasExprMetavar, Bool.or_eq_false_iff] at hm
    have hu' : (u = false ∨ v.hasUnivMetavar = false) ∧ (u = false ∨ b.hasUnivMetavar = false) := by
      rcases hu with hu | hu
      · exact ⟨Or.inl hu, Or.inl hu⟩
      · simp only [Expr.hasUnivMetavar, Bool.or_eq_false_iff] at hu
        exact ⟨Or.inr hu.1, Or.inr hu.2⟩
    by_cases h : purifySkip u (.letM n v b)
    · simp [purifyExpr, h]
    · simp only [purifyExpr, h, if_false]
      simp [ihv st hp.1 hm.1 hu'.1, ihb st hp.2 hm.2 hu'.2]
  | letVal v ih =>
    intro st hp hm hu
    simp only [Expr.hasExprMetavar] at hm
    have hu' : u = false ∨ v.hasUnivMetavar = false := by
      rcases hu with hu | hu
      · exact Or.inl hu
      · simp only [Expr.hasUnivMetavar] at hu
        exact Or.inr hu
    by_cases h : purifySkip u (.letVal v)
    · simp [purifyExpr, h]
    · simp only [purifyExpr, h, if_false]
      simp [ih st hp hm hu']
  | typedE ty x ihty ihx =>
    intro st hp hm hu
    simp only [Expr.hasExprMetavar, Bool.or_eq_false_iff] at hm
    have hu' : (u = false ∨ ty.hasUnivMetavar = false) ∧ (u = false ∨ x.hasUnivMetavar = false) := by
      rcases hu with hu | hu
      · exact ⟨Or.inl hu, Or.inl hu⟩
      · simp only [Expr.hasUnivMetavar, Bool.or_eq_false_iff] at hu
        exact ⟨Or.inr hu.1, Or.inr hu.2⟩
    by_cases h : purifySkip u (.typedE ty x)
    · simp [purifyExpr, h]
    · simp only [purifyExpr, h, if_false]
      simp [ihty st hp.1 hm.1 hu'.1, ihx st hp.2 hm.2 hu'.2]
  | explicitE x ih =>
    intro st hp hm hu
    simp only [Expr.hasExprMetavar] at hm
    have hu' : u = false ∨ x.hasUnivMetavar = false := by
      rcases hu with hu | hu
      · exact Or.inl hu
      · simp only [Expr.hasUnivMetavar] at hu
        exact Or.inr hu
    by_cases h : purifySkip u (.explicitE x)
    · simp [purifyExpr, h]
    · simp only [purifyExpr, h, if_false]
      simp [ih st hp hm hu']
  | placeholderE =>
    intro st _ _ _
    have h : purifySkip u .placeholderE = true := by
      simp [purifySkip, Expr.hasExprMetavar, Expr.hasLocal, Expr.hasUnivMetavar]
    simp [purifyExpr, h]

/-- C5, counterexample. Purification is *not* idempotent on metavariables:
renaming replaces the metavariable's identity (`mk_metavar(new_name, …)`,
pp.cpp line 147), so a second pass sees the display name `M1` as an unknown
identity and issues the fresh name `M2` — the already-renamed metavariable
does not keep its display name. -/
theorem C5_counterexample_meta_not_idempotent :
    (purifyExpr false (purifyExpr false {} (.meta "m" (.sort .zero))).2
        (purifyExpr false {} (.meta "m" (.sort .zero))).1).1 ≠
      (purifyExpr false {} (.meta "m" (.sort .zero))).1 := by decide

/-- C5, amended. Purification is idempotent — with the same tables still in
scope — exactly on terms that contain no metavariables needing renaming:
no expression metavariable, and (unless universe display is off) no
universe metavariable.  Local constants keep their identity when renamed,
so a second pass finds them in the table and changes nothing at all. -/
theorem C5_idempotent_without_metavars (u : Bool) (st : PurifySt) (e : Expr)
    (hm : e.hasExprMetavar = false) (hu : u = false ∨ e.hasUnivMetavar = false) :
    purifyExpr u (purifyExpr u st e).2 (purifyExpr u st e).1 = purifyExpr u st e := by
  have h1 := purify_purified u e st hm
  have h2 : (purifyExpr u st e).1.hasExprMetavar = false := purify_no_new_em u e st hm
  have h3 : u = false ∨ (purifyExpr u st e).1.hasUnivMetavar = false := by
    rcases hu with h | h
    · exact Or.inl h
    · exact Or.inr (purify_no_new_um u e st h)
  rw [purify_stable u _ _ h1 h2 h3]

/-- C5, witness: a term of two local constants (one name collision) purifies
to the same term and state twice. -/
theorem C5_witness :
    (Expr.app (.localE "l1" "x" (.sort .zero) {}) (.localE "l2" "x" (.sort .zero) {})).hasExprMetavar
        = false ∧
    purifyExpr false
        (purifyExpr false {}
          (Expr.app (.localE "l1" "x" (.sort .zero) {}) (.localE "l2" "x" (.sort .zero) {}))).2
        (purifyExpr false {}
          (Expr.app (.localE "l1" "x" (.sort .zero) {}) (.localE "l2" "x" (.sort .zero) {}))).1 =
      purifyExpr false {}
        (Expr.app (.localE "l1" "x" (.sort .zero) {}) (.localE "l2" "x" (.sort .zero) {})) :=
  ⟨by decide,
   C5_idempotent_without_metavars false {}
     (Expr.app (.localE "l1" "x" (.sort .zero) {}) (.localE "l2" "x" (.sort .zero) {}))
     (by decide) (Or.inl rfl)⟩

theorem freshLocalName_not_mem (used : List Name) (sugg : Name) :
    freshLocalName used sugg ∉ used := by
  unfold freshLocalName
  by_cases h : sugg ∉ used
  · simp only [h, if_true]
    exact h
  · rw [if_neg h]
    cases hf : ((List.range (used.length + 1)).map (fun i => sugg.appendAfter (i+1))
        |>.find? (fun r => r ∉ used)) with
    | some r =>
      simp only [hf]
      have := List.find?_some hf
      simpa using this
    | none =>
      exfalso
      have hall : ∀ x ∈ (List.range (used.length + 1)).map (fun i => sugg.appendAfter (i+1)),
          x ∈ used := by
        intro x hx
        have := List.find?_eq_none.mp hf x hx
        simpa using this
      have hnd : ((List.range (used.length + 1)).map (fun i => sugg.appendAfter (i+1))).Nodup := by
        refine List.Nodup.map ?_ (List.nodup_range _)
        intro i j hij
        exact Nat.succ_injective (Name.appendAfter_right_injective sugg hij)
      have hlen := (hnd.subperm hall).length_le
      simp at hlen

theorem mkMetavarName_inv (st : PurifySt) (m : Name) (h : PurifyInv st) :
    PurifyInv (mkMetavarName st m).2 := by
  cases hl : alookup st.metaTable m with
  | some r => simp only [mkMetavarName, hl]; exact h
  | none =>
    simp only [mkMetavarName, hl]
    obtain ⟨h1, h2, h3, h4⟩ := h
    refine ⟨?_, ?_, h3, h4⟩
    · simp only [List.map_cons, List.nodup_cons]
      refine ⟨?_, h1⟩
      intro hmem
      rcases List.mem_map.mp hmem with ⟨p, hp, hv⟩
      rcases h2 p hp with ⟨i, hi, hpe⟩
      rw [hpe] at hv
      have := Name.appendAfter_right_injective st.metaPfx hv
      omega
    · intro p hp
      rcases List.mem_cons.mp hp with rfl | hp'
      · exact ⟨st.nextMetaIdx, by show st.nextMetaIdx < st.nextMetaIdx + 1; omega, rfl⟩
      · rcases h2 p hp' with ⟨i, hi, hpe⟩
        exact ⟨i, by show i < st.nextMetaIdx + 1; omega, hpe⟩

theorem mkLocalName_inv (st : PurifySt) (n sugg : Name) (h : PurifyInv st) :
    PurifyInv (mkLocalName st n sugg).2 := by
  cases hl : alookup st.localTable n with
  | some r => simp only [mkLocalName, hl]; exact h
  | none =>
    simp only [mkLocalName, hl]
    obtain ⟨h1, h2, h3, h4⟩ := h
    have hfresh := freshLocalName_not_mem st.usedLocals sugg
    refine ⟨h1, h2, ?_, ?_⟩
    · simp only [List.map_cons, List.nodup_cons]
      refine ⟨?_, h3⟩
      intro hmem
      rcases List.mem_map.mp hmem with ⟨p, hp, hv⟩
      exact hfresh (hv ▸ h4 p hp)
    · intro p hp
      rcases List.mem_cons.mp hp with rfl | hp'
      · exact List.mem_cons_self _ _
      · exact List.mem_cons_of_mem _ (h4 p hp')

theorem purifyLevelCore_inv (st : PurifySt) (l : Level) (h : PurifyInv st) :
    PurifyInv (purifyLevelCore st l).2 := by
  induction l generalizing st with
  | zero => exact h
  | succ l1 ih =>
    by_cases hm : (Level.succ l1).hasMeta
    · simp only [purifyLevelCore, hm, Bool.not_true, Bool.false_eq_true, if_false]
      exact ih st h
    · simp only [purifyLevelCore, hm, Bool.not_false, if_true]; exact h
  | max a b iha ihb =>
    by_cases hm : (Level.max a b).hasMeta
    · simp only [purifyLevelCore, hm, Bool.not_true, Bool.false_eq_true, if_false]
      exact ihb _ (iha st h)
    · simp only [purifyLevelCore, hm, Bool.not_false, if_true]; exact h
  | imax a b iha ihb =>
    by_cases hm : (Level.imax a b).hasMeta
    · simp only [purifyLevelCore, hm, Bool.not_true, Bool.false_eq_true, if_false]
      exact ihb _ (iha st h)
    · simp only [purifyLevelCore, hm, Bool.not_false, if_true]; exact h
  | param n => exact h
  | mvar n =>
    by_cases hm : (Level.mvar n).hasMeta
    · simp only [purifyLevelCore, hm, Bool.not_true, Bool.false_eq_true, if_false]
      exact mkMetavarName_inv st n h
    · simp only [purifyLevelCore, hm, Bool.not_false, if_true]; exact h
  | placeholder => exact h

theorem purifyLevel_inv (u : Bool) (st : PurifySt) (l : Level) (h : PurifyInv st) :
    PurifyInv (purifyLevel u st l).2 := by
  unfold purifyLevel
  by_cases hc : (!u || !l.hasMeta) = true
  · simp only [hc, if_true]; exact h
  · simp only [hc, Bool.false_eq_true, if_false]; exact purifyLevelCore_inv st l h

theorem purifyLevels_inv (u : Bool) : ∀ (ls : List Level) (st : PurifySt),
    PurifyInv st → PurifyInv (purifyLevels u st ls).2 := by
  intro ls
  induction ls with
  | nil => intro st h; exact h
  | cons l ls ih =>
    intro st h
    simp only [purifyLevels]
    exact ih _ (purifyLevel_inv u st l h)

theorem purifyExpr_inv (u : Bool) : ∀ (e : Expr) (st : PurifySt),
    PurifyInv st → PurifyInv (purifyExpr u st e).2 := by
  intro e
  induction e with
  | var i =>
    intro st h
    by_cases hs : purifySkip u (.var i) <;> simp only [purifyExpr, hs, if_true, if_false] <;>
      exact h
  | sort l =>
    intro st h
    by_cases hs : purifySkip u (.sort l)
    · simp only [purifyExpr, hs, if_true]; exact h
    · simp only [purifyExpr, hs, if_false]; exact purifyLevel_inv u st l h
  | const n ls =>
    intro st h
    by_cases hs : purifySkip u (.const n ls)
    · simp only [purifyExpr, hs, if_true]; exact h
    · simp only [purifyExpr, hs, if_false]; exact purifyLevels_inv u ls st h
  | meta m ty ih =>
    intro st h
    by_cases hs : purifySkip u (.meta m ty)
    · simp only [purifyExpr, hs, if_true]; exact h
    · simp only [purifyExpr, hs, if_false]; exact mkMetavarName_inv st m h
  | localE idn ppn ty bi ih =>
    intro st h
    by_cases hs : purifySkip u (.localE idn ppn ty bi)
    · simp only [purifyExpr, hs, if_true]; exact h
    · simp only [purifyExpr, hs, if_false]; exact mkLocalName_inv st idn ppn h
  | app f a ihf iha =>
    intro st h
    by_cases hs : purifySkip u (.app f a)
    · simp only [purifyExpr, hs, if_true]; exact h
    · simp only [purifyExpr, hs, if_false]; exact iha _ (ihf st h)
  | lam n d b bi ihd ihb =>
    intro st h
    by_cases hs : purifySkip u (.lam n d b bi)
    · simp only [purifyExpr, hs, if_true]; exact h
    · simp only [purifyExpr, hs, if_false]; exact ihb _ (ihd st h)
  | pi n d b bi ihd ihb =>
    intro st h
    by_cases hs : purifySkip u (.pi n d b bi)
    · simp only [purifyExpr, hs, if_true]; exact h
    · simp only [purifyExpr, hs, if_false]; exact ihb _ (ihd st h)
  | annot an a ih =>
    intro st h
    by_cases hs : purifySkip u (.annot an a)
    · simp only [purifyExpr, hs, if_true]; exact h
    · simp only [purifyExpr, hs, if_false]; exact ih st h
  | letM n v b ihv ihb =>
    intro st h
    by_cases hs : purifySkip u (.letM n v b)
    · simp only [purifyExpr, hs, if_true]; exact h
    · simp only [purifyExpr, hs, if_false]; exact ihb _ (ihv st h)
  | letVal v ih =>
    intro st h
    by_cases hs : purifySkip u (.letVal v)
    · simp only [purifyExpr, hs, if_true]; exact h
    · simp only [purifyExpr, hs, if_false]; exact ih st h
  | typedE ty x ihty ihx =>
    intro st h
    by_cases hs : purifySkip u (.typedE ty x)
    · simp only [purifyExpr, hs, if_true]; exact h
    · simp only [purifyExpr, hs, if_false]; exact ihx _ (ihty st h)
  | explicitE x ih =>
    intro st h
    by_cases hs : purifySkip u (.explicitE x)
    · simp only [purifyExpr, hs, if_true]; exact h
    · simp only [purifyExpr, hs, if_false]; exact ih st h
  | placeholderE =>
    intro st h
    by_cases hs : purifySkip u .placeholderE <;> simp only [purifyExpr, hs, if_true, if_false] <;>
      exact h

/-- C6, counterexample. A single purification call can issue the *same*
display name to a metavariable and to a local constant: the used-name set
guards only locals and the metavariable counter only metavariables, so on a
term with one metavariable (named `M1` by the counter) and one local whose
suggested name is `M1`, the two issued display names coincide — the call
issues fewer than n + m distinct names. -/
theorem C6_counterexample_cross_class_clash :
    (purifyExpr false {} clashTerm).1 =
      .app (.meta "M1" (.sort .zero)) (.localE "l" "M1" (.sort .zero) {}) ∧
    ¬ (((purifyExpr false {} clashTerm).2.metaTable.map Prod.snd) ++
        ((purifyExpr false {} clashTerm).2.localTable.map Prod.snd)).Nodup := by
  constructor
  · decide
  · decide

/-- C6, amended. Distinctness holds within each class: starting from any
state satisfying the purifier's invariant (the initial state does), after
purifying any term the metavariable table maps distinct identities to
pairwise-distinct display names (`prefix<i>` with strictly increasing
counter values), and the local table maps distinct identities to
pairwise-distinct display names (guarded by the used-name set).  Distinctness
*across* the two classes is not guaranteed (see the counterexample). -/
theorem C6_per_class_distinct (u : Bool) (st : PurifySt) (e : Expr) (h : PurifyInv st) :
    PurifyInv (purifyExpr u st e).2 ∧
    ((purifyExpr u st e).2.metaTable.map Prod.snd).Nodup ∧
    ((purifyExpr u st e).2.localTable.map Prod.snd).Nodup := by
  have h' := purifyExpr_inv u e st h
  exact ⟨h', h'.1, h'.2.2.1⟩

theorem purifyInv_init : PurifyInv ({} : PurifySt) :=
  ⟨List.nodup_nil, fun p hp => absurd hp (List.not_mem_nil p),
   List.nodup_nil, fun p hp => absurd hp (List.not_mem_nil p)⟩

/-- C6, witness: the invariant holds initially and is preserved on the
clash term — each class's names stay pairwise distinct even though the two
classes collide. -/
theorem C6_witness :
    PurifyInv ({} : PurifySt) ∧
    (((purifyExpr false {} clashTerm).2.metaTable.map Prod.snd).Nodup ∧
      ((purifyExpr false {} clashTerm).2.localTable.map Prod.snd).Nodup) :=
  ⟨purifyInv_init, (C6_per_class_distinct false {} clashTerm purifyInv_init).2⟩
